import Mathlib

/-!
Verification development for `absl::parallel_flat_hash_set`
(files `absl/container/parallel_flat_hash_set.h` and
`absl/container/parallel_flat_hash_set_test.cc`).

The public header is a forwarding facade over the sharded open-addressing
engine (`container_internal::parallel_hash_set` over `raw_hash_set`), whose
sources are not part of this tree.  Following the specification of that
engine, we build a shallow embedding of its data model and operations:

* a probing table is a flat array of slots, each `Empty`, `Deleted`
  (tombstone) or `Full(element)`;
* elements are `(key, tag)` pairs: the key drives hashing and equality
  (as with a user-supplied `Hash`/`Eq` pair such as the `unique_ptr<int>`
  policies in the tests), the tag models the identity of the stored object
  beyond key equality;
* a deterministic probe sequence visits every slot before revisiting;
* a parallel hash set owns `N` independent probing tables ("shards") and
  routes every key to exactly one shard via the high-order hash bits.

All definitions are executable and all predicates decidable so that the
theorems can be evaluated on concrete inputs.
-/

set_option maxRecDepth 1000000

/-- Modelled from the spec: a slot of a probing table is one of
{Empty, Deleted, Full(element)}, where an element is a `(key, tag)` pair. -/
inductive Slot where
  | empty : Slot
  | deleted : Slot
  | full : Nat × Nat → Slot
deriving DecidableEq, Repr

/-- Whether a slot currently stores an element. -/
def Slot.isFull : Slot → Bool
  | .full _ => true
  | _ => false

/-- Whether a slot is a tombstone. -/
def Slot.isDeleted : Slot → Bool
  | .deleted => true
  | _ => false

/-- Read the slot array at a position (out-of-range reads as Empty; all
accesses in the development are in range). -/
def slotAt (l : List Slot) (p : Nat) : Slot := l.getD p .empty

/-- Number of Full (live) slots. -/
def countFull (l : List Slot) : Nat := l.countP Slot.isFull

/-- Number of Deleted (tombstone) slots. -/
def countDeleted (l : List Slot) : Nat := l.countP Slot.isDeleted

/-- Modelled from the spec: the deterministic probe sequence for probe-start
hash `h` over a table of capacity `cap`; it reaches all slots before
revisiting.  Position `j` of the sequence is `(h + j) % cap`. -/
def probeSeq (h cap : Nat) : List Nat := (List.range cap).map (fun j => (h + j) % cap)

/-- Modelled from the spec: `find`'s scan along the probe sequence: skip
Full slots holding other keys and Deleted slots, succeed on a Full slot
holding the key, stop with not-found on the first Empty slot. -/
def scanFind (l : List Slot) (k : Nat) : List Nat → Option Nat
  | [] => none
  | p :: ps =>
    match slotAt l p with
    | .full e => if e.1 = k then some p else scanFind l k ps
    | .deleted => scanFind l k ps
    | .empty => none

/-- Modelled from the spec: the scan for the first Empty-or-Deleted slot
along the probe sequence, used to place a newly inserted element. -/
def scanFree (l : List Slot) : List Nat → Option Nat
  | [] => none
  | p :: ps => if (slotAt l p).isFull then scanFree l ps else some p

/-- Modelled from the spec: a probing table owns an array of slots, the
current element count and the current tombstone count.  Invariant
(`TblWF` below): counts match the array and `size + tombstones` stays
within the capacity. -/
structure ProbingTable where
  slots : List Slot
  cnt : Nat
  tomb : Nat
deriving DecidableEq, Repr

/-- The live elements of a table, in slot order (tombstones skipped). -/
def tblElems (t : ProbingTable) : List (Nat × Nat) :=
  t.slots.filterMap fun s => match s with | .full e => some e | _ => none

/-- A freshly allocated table of the given capacity: all slots Empty. -/
def emptyTable (cap : Nat) : ProbingTable := ⟨List.replicate cap .empty, 0, 0⟩

/-- Modelled from the spec: `find(key)` computes the probe start from the
key's hash and scans the probe sequence for a matching Full slot. -/
def tblFindIdx (h k : Nat) (t : ProbingTable) : Option Nat :=
  scanFind t.slots k (probeSeq h t.slots.length)

/-- Modelled from the spec: locate the first Empty-or-Deleted slot along
the probe sequence of the given hash. -/
def tblFreeIdx (h : Nat) (t : ProbingTable) : Option Nat :=
  scanFree t.slots (probeSeq h t.slots.length)

/-- Numerator of the internal maximum load factor 7/8 (not user-settable). -/
def maxLoadNum : Nat := 7

/-- Denominator of the internal maximum load factor 7/8. -/
def maxLoadDen : Nat := 8

/-- Helper for `nextPow2`, structurally recursive on a fuel argument. -/
def nextPow2Aux (fuel n : Nat) : Nat :=
  match fuel with
  | 0 => 1
  | fuel + 1 => if n ≤ 1 then 1 else 2 * nextPow2Aux fuel ((n + 1) / 2)

/-- Smallest power of two that is at least `max n 1`, the engine's capacity
granularity. -/
def nextPow2 (n : Nat) : Nat := nextPow2Aux n n

/-- Modelled from the spec: construct the element in the first
Empty-or-Deleted slot along its probe sequence, mark it Full and update the
counts.  (The caller guarantees a free slot exists; the `none` fallback is
unreachable under `TblWF`.) -/
def placeFresh (hsh : Nat → Nat) (t : ProbingTable) (e : Nat × Nat) :
    ProbingTable × Nat × Bool :=
  match tblFreeIdx (hsh e.1) t with
  | some p =>
    (⟨t.slots.set p (.full e), t.cnt + 1,
      if (slotAt t.slots p).isDeleted then t.tomb - 1 else t.tomb⟩, p, true)
  | none => (t, 0, false)

/-- Modelled from the spec: `rehash(target_capacity)` allocates a new slot
array sized `max(target_capacity, ceil(size / max_load_factor))` rounded up
to the capacity granularity, and re-inserts all Full entries (skipping
Deleted) in table order. -/
def tblRehash (hsh : Nat → Nat) (t : ProbingTable) (target : Nat) : ProbingTable :=
  let newCap := nextPow2 (max target ((maxLoadDen * t.cnt + (maxLoadNum - 1)) / maxLoadNum))
  (tblElems t).foldl (fun acc e => (placeFresh hsh acc e).1) (emptyTable newCap)

/-- Modelled from the spec: a grow-rehash is triggered when the post-insert
load factor would exceed the internal maximum 7/8; only then does the table
reallocate (at least doubling, with a minimum initial capacity of 16). -/
def growIfNeeded (hsh : Nat → Nat) (t : ProbingTable) : ProbingTable :=
  if maxLoadNum * t.slots.length < maxLoadDen * (t.cnt + t.tomb + 1)
  then tblRehash hsh t (max (2 * t.slots.length) 16)
  else t

/-- Modelled from the spec: `insert(key) -> (position, inserted)`.  If `find`
locates an existing equal key, returns that position with `inserted=false`
and the stored element untouched; otherwise (growing first if the load
factor requires it) places the element at the first free slot of its probe
sequence and returns `inserted=true`. -/
def tblInsert (hsh : Nat → Nat) (t : ProbingTable) (e : Nat × Nat) :
    ProbingTable × Nat × Bool :=
  match tblFindIdx (hsh e.1) e.1 t with
  | some p => (t, p, false)
  | none => placeFresh hsh (growIfNeeded hsh t) e

/-- Modelled from the spec: erase by key marks the matching slot Deleted
(tombstone), never shrinking or compacting; returns whether a matching
element existed. -/
def tblErase (hsh : Nat → Nat) (t : ProbingTable) (k : Nat) : ProbingTable × Bool :=
  match tblFindIdx (hsh k) k t with
  | some p => (⟨t.slots.set p .deleted, t.cnt - 1, t.tomb + 1⟩, true)
  | none => (t, false)

/-- Some element with the given key is stored in the table. -/
def KeyIn (t : ProbingTable) (k : Nat) : Prop := ∃ e ∈ tblElems t, e.1 = k

instance (t : ProbingTable) (k : Nat) : Decidable (KeyIn t k) :=
  List.decidableBEx _ (tblElems t)

/-- The element stored at slot `p`, if any, is findable by its own key. -/
def findOk (hsh : Nat → Nat) (t : ProbingTable) (p : Nat) : Bool :=
  match slotAt t.slots p with
  | .full e => tblFindIdx (hsh e.1) e.1 t == some p
  | _ => true

/-- Table well-formedness: counts match the slot array, occupancy
(`size + tombstones`) stays strictly below a positive capacity, and every
stored element is findable along its own probe sequence. -/
def TblWF (hsh : Nat → Nat) (t : ProbingTable) : Prop :=
  t.cnt = countFull t.slots ∧ t.tomb = countDeleted t.slots ∧
  (0 < t.slots.length → t.cnt + t.tomb < t.slots.length) ∧
  ∀ p, p < t.slots.length → findOk hsh t p = true

instance (hsh : Nat → Nat) (t : ProbingTable) : Decidable (TblWF hsh t) := by
  unfold TblWF
  infer_instance

/-- Modelled from the spec: the shard router, exposed as `subidx` by the
header — a pure, stateless function of the hash value and the shard count,
mapping the hash's high-order bits modulo `N` (the low-order bits drive
in-shard probing). -/
def subidx (h N : Nat) : Nat := (h / 65536) % N

/-- Modelled from the spec: the parallel hash set owns `N` independent
shards, each a probing table; `N` is fixed at construction. -/
structure ParallelHashSet where
  shards : List ProbingTable
deriving DecidableEq, Repr

namespace ParallelHashSet

/-- Number of internal hash tables, as exposed by `subcnt` in the header. -/
def subcnt (s : ParallelHashSet) : Nat := s.shards.length

/-- A freshly constructed set with `N` empty shards (the default constructor
makes no allocation for the tables' elements). -/
def pEmpty (N : Nat) : ParallelHashSet := ⟨List.replicate N (emptyTable 0)⟩

/-- The shard with a given index. -/
def shardAt (s : ParallelHashSet) (i : Nat) : ProbingTable :=
  s.shards.getD i (emptyTable 0)

/-- Modelled from the spec: `insert` hashes once, routes to the owning
shard, and delegates to that shard's probing-table insert under the shard
lock; the other shards are untouched.  Returns the updated set and whether
the key was newly added. -/
def insert (hsh : Nat → Nat) (s : ParallelHashSet) (e : Nat × Nat) :
    ParallelHashSet × Bool :=
  let i := subidx (hsh e.1) s.shards.length
  let r := tblInsert hsh (shardAt s i) e
  (⟨s.shards.set i r.1⟩, r.2.2)

/-- Modelled from the spec: `find` routes to the owning shard and delegates;
the result is the shard index and slot position of the match, if any. -/
def find (hsh : Nat → Nat) (s : ParallelHashSet) (k : Nat) : Option (Nat × Nat) :=
  let i := subidx (hsh k) s.shards.length
  (tblFindIdx (hsh k) k (shardAt s i)).map fun p => (i, p)

/-- Modelled from the spec: `contains` is `find` tested for success; it
never mutates. -/
def contains (hsh : Nat → Nat) (s : ParallelHashSet) (k : Nat) : Bool :=
  (find hsh s k).isSome

/-- The element stored for a key, read through `find`'s position. -/
def getStored (hsh : Nat → Nat) (s : ParallelHashSet) (k : Nat) :
    Option (Nat × Nat) :=
  (find hsh s k).bind fun ip =>
    match slotAt (shardAt s ip.1).slots ip.2 with
    | .full e => some e
    | _ => none

/-- Modelled from the spec: `erase(key)` routes, delegates to the shard's
tombstoning erase, and reports whether a matching element existed. -/
def erase (hsh : Nat → Nat) (s : ParallelHashSet) (k : Nat) :
    ParallelHashSet × Bool :=
  let i := subidx (hsh k) s.shards.length
  let r := tblErase hsh (shardAt s i) k
  (⟨s.shards.set i r.1⟩, r.2)

/-- Modelled from the spec: `size()` is the sum of the per-shard sizes. -/
def size (s : ParallelHashSet) : Nat := (s.shards.map ProbingTable.cnt).sum

/-- Modelled from the spec: iteration concatenates each shard's elements in
shard order `0..N-1`. -/
def elems (s : ParallelHashSet) : List (Nat × Nat) := s.shards.flatMap tblElems

/-- Modelled from the spec: `rehash(target)` distributes the target capacity
evenly across the shards and rehashes each shard independently. -/
def rehash (hsh : Nat → Nat) (s : ParallelHashSet) (target : Nat) :
    ParallelHashSet :=
  ⟨s.shards.map fun t => tblRehash hsh t (target / s.shards.length)⟩

/-- Bulk (range / initializer-list) insert, first element to last. -/
def insertList (hsh : Nat → Nat) (s : ParallelHashSet) (l : List (Nat × Nat)) :
    ParallelHashSet :=
  l.foldl (fun acc e => (insert hsh acc e).1) s

/-- Modelled from the spec: one step of `merge` — attempt an insert of one
source element into the destination; if it was newly added (its key was not
already in the destination), the element moves: it is erased from the
source.  Otherwise both sets are left as they are. -/
def mergeStep (hsh : Nat → Nat) (ds : ParallelHashSet × ParallelHashSet)
    (e : Nat × Nat) : ParallelHashSet × ParallelHashSet :=
  let r := insert hsh ds.1 e
  if r.2 then (r.1, (erase hsh ds.2 e.1).1) else ds

/-- Modelled from the spec: `merge(source)` attempts an insert into `this`
for each element of `source`; an element whose key already exists in `this`
remains in `source`, every other element is moved (inserted here and erased
from `source`). -/
def merge (hsh : Nat → Nat) (dst src : ParallelHashSet) :
    ParallelHashSet × ParallelHashSet :=
  (elems src).foldl (mergeStep hsh) (dst, src)

/-- Modelled from the spec: `extract(key)` erases the matching element and
returns it as a node handle (`none` when the key is absent). -/
def extract (hsh : Nat → Nat) (s : ParallelHashSet) (k : Nat) :
    ParallelHashSet × Option (Nat × Nat) :=
  match getStored hsh s k with
  | some e => ((erase hsh s k).1, some e)
  | none => (s, none)

/-- Result of inserting a node handle: the position of the relevant element,
whether the insertion took place, and the node handle (non-empty exactly
when the insert failed, returning ownership to the caller). -/
structure InsertReturn where
  shard : Nat
  position : Nat
  inserted : Bool
  node : Option (Nat × Nat)
deriving DecidableEq, Repr

/-- Modelled from the spec and the node-handle API: inserting a node handle
delegates to the owning shard's insert; on failure the returned node still
owns the element and `position` points at the pre-existing element. -/
def insertNode (hsh : Nat → Nat) (s : ParallelHashSet) (nd : Option (Nat × Nat)) :
    ParallelHashSet × InsertReturn :=
  match nd with
  | none => (s, ⟨0, 0, false, none⟩)
  | some e =>
    let i := subidx (hsh e.1) s.shards.length
    let r := tblInsert hsh (shardAt s i) e
    (⟨s.shards.set i r.1⟩, ⟨i, r.2.1, r.2.2, if r.2.2 then none else some e⟩)

/-- Setter overload of `max_load_factor(float ml)`: provided only for API
compatibility with the STL and ignored — the engine manages its load factor
internally (`maxLoadNum`/`maxLoadDen`). -/
def max_load_factor (s : ParallelHashSet) (_ml : Nat) : ParallelHashSet := s

/-- Some element with the given key is stored in the set. -/
def keyInSet (s : ParallelHashSet) (k : Nat) : Prop := ∃ e ∈ elems s, e.1 = k

instance (s : ParallelHashSet) (k : Nat) : Decidable (keyInSet s k) :=
  List.decidableBEx _ (elems s)

/-- The element stored at slot `p` of shard `i`, if any, routes to shard
`i`. -/
def routeOk (hsh : Nat → Nat) (s : ParallelHashSet) (i p : Nat) : Bool :=
  match slotAt (shardAt s i).slots p with
  | .full e => subidx (hsh e.1) s.shards.length == i
  | _ => true

/-- Well-formedness of the parallel set: a positive shard count, every shard
a well-formed probing table, and the routing invariant — every stored
element lives in the shard its hash routes to. -/
def ParWF (hsh : Nat → Nat) (s : ParallelHashSet) : Prop :=
  0 < s.shards.length ∧
  (∀ i, i < s.shards.length → TblWF hsh (shardAt s i)) ∧
  (∀ i, i < s.shards.length → ∀ p, p < (shardAt s i).slots.length →
    routeOk hsh s i p = true)

instance (hsh : Nat → Nat) (s : ParallelHashSet) : Decidable (ParWF hsh s) := by
  unfold ParWF
  infer_instance

end ParallelHashSet

/-- Modelled from the spec: a mutex policy supplies acquire/release
operations (here on an abstract lock-state counter). -/
structure MutexPolicy where
  acquire : Nat → Nat
  release : Nat → Nat

/-- Modelled from the spec: the no-op mutex specialization for
single-threaded use — acquire and release do nothing. -/
def NullMutex : MutexPolicy := ⟨id, id⟩

/-- Default shard count of `parallel_flat_hash_set`: template parameter
`size_t N = 4` in the header. -/
def defaultN : Nat := 4

/-- Default mutex policy of `parallel_flat_hash_set`: template parameter
`class Mutex = absl::NullMutex` in the header. -/
def defaultMutex : MutexPolicy := NullMutex

namespace ParallelHashSet

/-- A concrete hash function for the concrete scenarios: the key in the
high-order bits (so consecutive keys spread across shards) and again in the
low-order bits (driving in-shard probing). -/
def hshC (k : Nat) : Nat := 65536 * k + k

/-- Concrete scenario set `set1 = {7, 17}` (tags 1 and 2). -/
def set1C : ParallelHashSet := insertList hshC (pEmpty 4) [(7, 1), (17, 2)]

/-- Concrete scenario set `set2 = {7, 19}` (tags 3 and 4). -/
def set2C : ParallelHashSet := insertList hshC (pEmpty 4) [(7, 3), (19, 4)]

/-- The elements `{1..100}` (all tags 0). -/
def keys100 : List (Nat × Nat) := (List.range 100).map (fun i => (i + 1, 0))

/-- The scenario set after inserting keys `{1..100}` into an empty set with
`N = 4` shards. -/
def set100 : ParallelHashSet := insertList hshC (pEmpty 4) keys100

end ParallelHashSet

theorem slotAt_set_self {l : List Slot} {p : Nat} (hp : p < l.length) (a : Slot) :
    slotAt (l.set p a) p = a := by
  rw [slotAt, List.getD_eq_getElem _ _ (by simpa using hp), List.getElem_set]
  simp

theorem slotAt_set_ne {l : List Slot} {p q : Nat} (hpq : p ≠ q) (a : Slot) :
    slotAt (l.set p a) q = slotAt l q := by
  simp [slotAt, List.getD_eq_getElem?_getD, List.getElem?_set, hpq]

theorem slotAt_replicate_empty (n p : Nat) :
    slotAt (List.replicate n Slot.empty) p = Slot.empty := by
  by_cases hp : p < n
  · rw [slotAt, List.getD_eq_getElem _ _ (by simpa using hp), List.getElem_replicate]
  · rw [slotAt, List.getD_eq_getElem?_getD, List.getElem?_eq_none (by simpa using hp)]
    rfl

theorem slotAt_eq_getElem {l : List Slot} {p : Nat} (hp : p < l.length) :
    slotAt l p = l[p] := List.getD_eq_getElem l .empty hp

theorem countFull_replicate_empty (n : Nat) :
    countFull (List.replicate n Slot.empty) = 0 := by
  rw [countFull, List.countP_eq_zero]
  intro a ha
  rw [(List.mem_replicate.mp ha).2]
  simp [Slot.isFull]

theorem countDeleted_replicate_empty (n : Nat) :
    countDeleted (List.replicate n Slot.empty) = 0 := by
  rw [countDeleted, List.countP_eq_zero]
  intro a ha
  rw [(List.mem_replicate.mp ha).2]
  simp [Slot.isDeleted]

theorem countFull_set_full {l : List Slot} {p : Nat} (hp : p < l.length)
    (hnf : (slotAt l p).isFull = false) (e : Nat × Nat) :
    countFull (l.set p (.full e)) = countFull l + 1 := by
  rw [countFull, countFull, List.countP_set _ _ _ _ hp]
  rw [slotAt_eq_getElem hp] at hnf
  simp only [Slot.isFull] at hnf
  simp [hnf, Slot.isFull]

theorem countFull_set_deleted {l : List Slot} {p : Nat} (hp : p < l.length)
    {e : Nat × Nat} (hf : slotAt l p = .full e) :
    countFull (l.set p .deleted) = countFull l - 1 := by
  rw [countFull, countFull, List.countP_set _ _ _ _ hp]
  rw [slotAt_eq_getElem hp] at hf
  simp [hf, Slot.isFull, Slot.isDeleted]

theorem countFull_pos {l : List Slot} {p : Nat} (hp : p < l.length)
    {e : Nat × Nat} (hf : slotAt l p = .full e) : 0 < countFull l := by
  rw [countFull]
  refine List.countP_pos_iff.mpr ⟨l[p], List.getElem_mem hp, ?_⟩
  rw [slotAt_eq_getElem hp] at hf
  rw [hf]
  rfl

theorem countDeleted_set_full {l : List Slot} {p : Nat} (hp : p < l.length)
    (e : Nat × Nat) :
    countDeleted (l.set p (.full e)) =
      countDeleted l - (if (slotAt l p).isDeleted then 1 else 0) := by
  rw [countDeleted, countDeleted, List.countP_set _ _ _ _ hp]
  rw [slotAt_eq_getElem hp]
  simp [Slot.isDeleted]

theorem countDeleted_set_deleted {l : List Slot} {p : Nat} (hp : p < l.length)
    {e : Nat × Nat} (hf : slotAt l p = .full e) :
    countDeleted (l.set p .deleted) = countDeleted l + 1 := by
  rw [countDeleted, countDeleted, List.countP_set _ _ _ _ hp]
  rw [slotAt_eq_getElem hp] at hf
  simp [hf, Slot.isDeleted]

theorem probeSeq_length (h cap : Nat) : (probeSeq h cap).length = cap := by
  simp [probeSeq]

theorem probeSeq_mem_lt {h cap p : Nat} (hp : p ∈ probeSeq h cap) : p < cap := by
  rw [probeSeq, List.mem_map] at hp
  obtain ⟨j, hj, rfl⟩ := hp
  exact Nat.mod_lt _ (Nat.lt_of_le_of_lt (Nat.zero_le j) (List.mem_range.mp hj))

theorem probeSeq_nodup (h cap : Nat) : (probeSeq h cap).Nodup := by
  refine List.Nodup.map_on ?_ (List.nodup_range cap)
  intro x hx y hy e
  rw [List.mem_range] at hx hy
  have h0 : 0 < cap := Nat.lt_of_le_of_lt (Nat.zero_le x) hx
  have : x % cap = y % cap :=
    Nat.ModEq.add_left_cancel (Nat.ModEq.refl h) (e : (h + x) ≡ (h + y) [MOD cap])
  rwa [Nat.mod_eq_of_lt hx, Nat.mod_eq_of_lt hy] at this

theorem scanFind_some {l : List Slot} {k : Nat} {ps : List Nat} {p : Nat}
    (hs : scanFind l k ps = some p) :
    ∃ ps₁ ps₂ e, ps = ps₁ ++ p :: ps₂ ∧ slotAt l p = .full e ∧ e.1 = k ∧
      ∀ m ∈ ps₁, slotAt l m ≠ .empty ∧ ∀ e₂, slotAt l m = .full e₂ → e₂.1 ≠ k := by
  induction ps with
  | nil => simp [scanFind] at hs
  | cons q ps ih =>
    rw [scanFind] at hs
    split at hs
    case _ e hsl =>
      by_cases hek : e.1 = k
      · rw [if_pos hek] at hs
        obtain rfl : q = p := by simpa using hs
        exact ⟨[], ps, e, rfl, hsl, hek, by simp⟩
      · rw [if_neg hek] at hs
        obtain ⟨ps₁, ps₂, e₂, rfl, h1, h2, h3⟩ := ih hs
        refine ⟨q :: ps₁, ps₂, e₂, rfl, h1, h2, ?_⟩
        intro m hm
        rcases List.mem_cons.mp hm with rfl | hm
        · refine ⟨(by rw [hsl]; intro hc; cases hc), ?_⟩
          intro e₃ hc
          rw [hsl] at hc
          cases hc
          exact hek
        · exact h3 m hm
    case _ hsl =>
      obtain ⟨ps₁, ps₂, e, rfl, h1, h2, h3⟩ := ih hs
      refine ⟨q :: ps₁, ps₂, e, rfl, h1, h2, ?_⟩
      intro m hm
      rcases List.mem_cons.mp hm with rfl | hm
      · exact ⟨(by rw [hsl]; intro hc; cases hc), (by intro e₂ hc; rw [hsl] at hc; cases hc)⟩
      · exact h3 m hm
    case _ hsl => cases hs

theorem scanFind_some_full {l : List Slot} {k : Nat} {ps : List Nat} {p : Nat}
    (hs : scanFind l k ps = some p) :
    p ∈ ps ∧ ∃ e, slotAt l p = .full e ∧ e.1 = k := by
  obtain ⟨ps₁, ps₂, e, rfl, h1, h2, _⟩ := scanFind_some hs
  exact ⟨by simp, e, h1, h2⟩

theorem scanFind_append_full {l : List Slot} {k : Nat} {ps₁ ps₂ : List Nat} {p : Nat}
    {e : Nat × Nat}
    (hpre : ∀ m ∈ ps₁, slotAt l m ≠ .empty ∧ ∀ e₂, slotAt l m = .full e₂ → e₂.1 ≠ k)
    (hp : slotAt l p = .full e) (hek : e.1 = k) :
    scanFind l k (ps₁ ++ p :: ps₂) = some p := by
  induction ps₁ with
  | nil => simp [scanFind, hp, hek]
  | cons q qs ih =>
    have hq := hpre q (by simp)
    rw [List.cons_append, scanFind]
    split
    case _ e₂ hsl =>
      rw [if_neg (hq.2 e₂ hsl)]
      exact ih fun m hm => hpre m (by simp [hm])
    case _ hsl => exact ih fun m hm => hpre m (by simp [hm])
    case _ hsl => exact absurd hsl hq.1

theorem scanFind_eq_none {l : List Slot} {k : Nat} {ps : List Nat}
    (habs : ∀ p ∈ ps, ∀ e, slotAt l p = .full e → e.1 ≠ k) :
    scanFind l k ps = none := by
  cases hs : scanFind l k ps with
  | none => rfl
  | some p =>
    obtain ⟨hmem, e, hf, hek⟩ := scanFind_some_full hs
    exact absurd hek (habs p hmem e hf)

theorem scanFree_some {l : List Slot} {ps : List Nat} {p : Nat}
    (hs : scanFree l ps = some p) :
    ∃ ps₁ ps₂, ps = ps₁ ++ p :: ps₂ ∧ (slotAt l p).isFull = false ∧
      ∀ m ∈ ps₁, (slotAt l m).isFull = true := by
  induction ps with
  | nil => simp [scanFree] at hs
  | cons q ps ih =>
    rw [scanFree] at hs
    by_cases hq : (slotAt l q).isFull
    · rw [if_pos hq] at hs
      obtain ⟨ps₁, ps₂, rfl, h1, h2⟩ := ih hs
      refine ⟨q :: ps₁, ps₂, rfl, h1, ?_⟩
      intro m hm
      rcases List.mem_cons.mp hm with rfl | hm
      · exact hq
      · exact h2 m hm
    · rw [if_neg hq] at hs
      obtain rfl : q = p := by simpa using hs
      exact ⟨[], ps, rfl, by simpa using hq, by simp⟩

theorem scanFree_none {l : List Slot} {ps : List Nat}
    (hs : scanFree l ps = none) : ∀ m ∈ ps, (slotAt l m).isFull = true := by
  induction ps with
  | nil => simp
  | cons q ps ih =>
    rw [scanFree] at hs
    by_cases hq : (slotAt l q).isFull
    · rw [if_pos hq] at hs
      intro m hm
      rcases List.mem_cons.mp hm with rfl | hm
      · exact hq
      · exact ih hs m hm
    · rw [if_neg hq] at hs
      cases hs

theorem scanFree_isSome {l : List Slot} {ps : List Nat} {q : Nat}
    (hq : q ∈ ps) (hnf : (slotAt l q).isFull = false) :
    ∃ p, scanFree l ps = some p := by
  cases hs : scanFree l ps with
  | some p => exact ⟨p, rfl⟩
  | none => exact absurd (scanFree_none hs q hq) (by simp [hnf])

theorem probeSeq_surj {cap q : Nat} (h : Nat) (hq : q < cap) : q ∈ probeSeq h cap := by
  rw [probeSeq, List.mem_map]
  refine ⟨(cap - h % cap + q) % cap, ?_, ?_⟩
  · exact List.mem_range.mpr (Nat.mod_lt _ (Nat.lt_of_le_of_lt (Nat.zero_le q) hq))
  · have hlt : h % cap < cap := Nat.mod_lt _ (Nat.lt_of_le_of_lt (Nat.zero_le q) hq)
    rw [Nat.add_mod_mod, ← Nat.mod_add_mod]
    have e2 : h % cap + (cap - h % cap + q) = cap + q := by omega
    rw [e2, Nat.add_mod_left, Nat.mod_eq_of_lt hq]

theorem nextPow2Aux_pos (fuel n : Nat) : 0 < nextPow2Aux fuel n := by
  induction fuel generalizing n with
  | zero => exact Nat.one_pos
  | succ fuel ih =>
    rw [nextPow2Aux]
    by_cases h : n ≤ 1
    · rw [if_pos h]
      exact Nat.one_pos
    · rw [if_neg h]
      have := ih ((n + 1) / 2)
      omega

theorem nextPow2Aux_ge (fuel n : Nat) (hf : n ≤ fuel) : n ≤ nextPow2Aux fuel n := by
  induction fuel generalizing n with
  | zero => omega
  | succ fuel ih =>
    rw [nextPow2Aux]
    by_cases h : n ≤ 1
    · rw [if_pos h]
      omega
    · rw [if_neg h]
      have := ih ((n + 1) / 2) (by omega)
      omega

theorem nextPow2_pos (n : Nat) : 0 < nextPow2 n := nextPow2Aux_pos n n

theorem nextPow2_ge (n : Nat) : n ≤ nextPow2 n := nextPow2Aux_ge n n (Nat.le_refl n)

theorem mem_tblElems {t : ProbingTable} {e : Nat × Nat} :
    e ∈ tblElems t ↔ ∃ p, p < t.slots.length ∧ slotAt t.slots p = .full e := by
  rw [tblElems, List.mem_filterMap]
  constructor
  · rintro ⟨s, hs, hfs⟩
    obtain ⟨p, hp, hsp⟩ := List.mem_iff_getElem.mp hs
    refine ⟨p, hp, ?_⟩
    rw [slotAt_eq_getElem hp, hsp]
    cases s with
    | full e₂ =>
      simp at hfs
      rw [hfs]
    | empty => cases hfs
    | deleted => cases hfs
  · rintro ⟨p, hp, hfp⟩
    refine ⟨.full e, ?_, rfl⟩
    rw [slotAt_eq_getElem hp] at hfp
    exact hfp ▸ List.getElem_mem hp

theorem tblFindIdx_some {h k : Nat} {t : ProbingTable} {p : Nat}
    (hf : tblFindIdx h k t = some p) :
    p < t.slots.length ∧ ∃ e, slotAt t.slots p = .full e ∧ e.1 = k := by
  obtain ⟨hmem, e, hfull, hek⟩ := scanFind_some_full hf
  exact ⟨probeSeq_mem_lt hmem, e, hfull, hek⟩

theorem TblWF.findable {hsh : Nat → Nat} {t : ProbingTable} (hwf : TblWF hsh t)
    {p : Nat} (hp : p < t.slots.length) {e : Nat × Nat}
    (hfull : slotAt t.slots p = .full e) :
    tblFindIdx (hsh e.1) e.1 t = some p := by
  have h := hwf.2.2.2 p hp
  rw [findOk, hfull] at h
  exact beq_iff_eq.mp h

theorem TblWF.unique {hsh : Nat → Nat} {t : ProbingTable} (hwf : TblWF hsh t)
    {p q : Nat} (hp : p < t.slots.length) (hq : q < t.slots.length)
    {e e₂ : Nat × Nat} (hfp : slotAt t.slots p = .full e)
    (hfq : slotAt t.slots q = .full e₂) (hk : e.1 = e₂.1) : p = q := by
  have h1 := hwf.findable hp hfp
  have h2 := hwf.findable hq hfq
  rw [hk] at h1
  rw [h1] at h2
  exact Option.some_inj.mp h2

theorem TblWF.keyIn_find {hsh : Nat → Nat} {t : ProbingTable} (hwf : TblWF hsh t)
    {k : Nat} (hin : KeyIn t k) :
    ∃ p e, tblFindIdx (hsh k) k t = some p ∧ slotAt t.slots p = .full e ∧ e.1 = k := by
  obtain ⟨e, he, hek⟩ := hin
  obtain ⟨p, hp, hfull⟩ := mem_tblElems.mp he
  exact ⟨p, e, hek ▸ hwf.findable hp hfull, hfull, hek⟩

theorem tblFindIdx_none_of_absent {h k : Nat} {t : ProbingTable}
    (habs : ¬ KeyIn t k) : tblFindIdx h k t = none := by
  refine scanFind_eq_none ?_
  intro p hp e hfull hek
  exact habs ⟨e, mem_tblElems.mpr ⟨p, probeSeq_mem_lt hp, hfull⟩, hek⟩

theorem TblWF.find_none_absent {hsh : Nat → Nat} {t : ProbingTable}
    (hwf : TblWF hsh t) {k : Nat} (hf : tblFindIdx (hsh k) k t = none) :
    ¬ KeyIn t k := by
  intro hin
  obtain ⟨p, e, hfind, -, -⟩ := hwf.keyIn_find hin
  rw [hf] at hfind
  cases hfind

theorem Slot.isFull_iff {s : Slot} : s.isFull = true ↔ ∃ e, s = .full e := by
  cases s <;> simp [Slot.isFull]

theorem Slot.eq_deleted_of {s : Slot} (hne : s ≠ .empty) (hnf : s.isFull = false) :
    s = .deleted := by
  cases s with
  | empty => exact absurd rfl hne
  | deleted => rfl
  | full e => cases hnf

theorem countDeleted_pos {l : List Slot} {p : Nat} (hp : p < l.length)
    (hf : slotAt l p = .deleted) : 0 < countDeleted l := by
  rw [countDeleted]
  refine List.countP_pos_iff.mpr ⟨l[p], List.getElem_mem hp, ?_⟩
  rw [slotAt_eq_getElem hp] at hf
  rw [hf]
  rfl

theorem exists_free_slot {l : List Slot} (hlt : countFull l < l.length) :
    ∃ q, q < l.length ∧ (slotAt l q).isFull = false := by
  by_contra hc
  push_neg at hc
  have hall : ∀ a ∈ l, Slot.isFull a = true := by
    intro a ha
    obtain ⟨q, hq, rfl⟩ := List.mem_iff_getElem.mp ha
    have := hc q hq
    rw [slotAt_eq_getElem hq] at this
    simpa using this
  rw [countFull, List.countP_eq_length.mpr hall] at hlt
  exact Nat.lt_irrefl _ hlt

theorem probeSeq_split_not_mem {h cap : Nat} {ps₁ ps₂ : List Nat} {p : Nat}
    (hsplit : probeSeq h cap = ps₁ ++ p :: ps₂) : p ∉ ps₁ := by
  have hnd := probeSeq_nodup h cap
  rw [hsplit, List.nodup_append] at hnd
  exact fun hm => hnd.2.2 hm (by simp)

theorem placeFresh_spec {hsh : Nat → Nat} {t : ProbingTable} {e : Nat × Nat}
    (hwf : TblWF hsh t) (habs : ¬ KeyIn t e.1)
    (hload : t.cnt + t.tomb + 1 < t.slots.length) :
    (placeFresh hsh t e).2.2 = true ∧
    (placeFresh hsh t e).2.1 < t.slots.length ∧
    (slotAt t.slots (placeFresh hsh t e).2.1).isFull = false ∧
    (placeFresh hsh t e).1.slots = t.slots.set (placeFresh hsh t e).2.1 (.full e) ∧
    (placeFresh hsh t e).1.cnt = t.cnt + 1 ∧
    (placeFresh hsh t e).1.slots.length = t.slots.length ∧
    TblWF hsh (placeFresh hsh t e).1 ∧
    tblFindIdx (hsh e.1) e.1 (placeFresh hsh t e).1 = some (placeFresh hsh t e).2.1 ∧
    slotAt (placeFresh hsh t e).1.slots (placeFresh hsh t e).2.1 = .full e ∧
    (∀ x, x ∈ tblElems (placeFresh hsh t e).1 ↔ x ∈ tblElems t ∨ x = e) ∧
    (countDeleted t.slots = 0 → countDeleted (placeFresh hsh t e).1.slots = 0) := by
  -- a free slot exists, so the free-slot scan succeeds
  have hcnt := hwf.1
  have htomb := hwf.2.1
  have hcf : countFull t.slots < t.slots.length := by omega
  obtain ⟨q, hq, hqf⟩ := exists_free_slot hcf
  obtain ⟨p, hfree⟩ :=
    scanFree_isSome (probeSeq_surj (hsh e.1) hq) hqf
  have hfree' : tblFreeIdx (hsh e.1) t = some p := hfree
  -- decompose the free-slot scan
  obtain ⟨ps₁, ps₂, hsplit, hpnf, hpre⟩ := scanFree_some hfree
  have hpmem : p ∈ probeSeq (hsh e.1) t.slots.length := by
    rw [hsplit]; simp
  have hp : p < t.slots.length := probeSeq_mem_lt hpmem
  have hres : placeFresh hsh t e =
      (⟨t.slots.set p (.full e), t.cnt + 1,
        if (slotAt t.slots p).isDeleted then t.tomb - 1 else t.tomb⟩, p, true) := by
    rw [placeFresh, hfree']
  rw [hres]
  have hlen : (t.slots.set p (.full e)).length = t.slots.length := List.length_set ..
  -- all old elements have a key different from the new key
  have hothers : ∀ m, m < t.slots.length → ∀ x, slotAt t.slots m = .full x →
      x.1 ≠ e.1 := by
    intro m hm x hfx hk
    exact habs ⟨x, mem_tblElems.mpr ⟨m, hm, hfx⟩, hk⟩
  -- the new element is findable at p
  have hfind_new : tblFindIdx (hsh e.1) e.1
      ⟨t.slots.set p (.full e), t.cnt + 1,
        if (slotAt t.slots p).isDeleted then t.tomb - 1 else t.tomb⟩ = some p := by
    rw [tblFindIdx]
    simp only [hlen]
    rw [hsplit]
    refine scanFind_append_full ?_ (slotAt_set_self hp _) rfl
    intro m hm
    have hmp : m ≠ p := fun hc => probeSeq_split_not_mem hsplit (hc ▸ hm)
    rw [slotAt_set_ne (fun hc => hmp hc.symm)]
    obtain ⟨x, hx⟩ := Slot.isFull_iff.mp (hpre m hm)
    have hmlt : m < t.slots.length := probeSeq_mem_lt (by rw [hsplit]; simp [hm])
    refine ⟨(by rw [hx]; intro hc; cases hc), ?_⟩
    intro e₂ he₂
    rw [hx] at he₂
    cases he₂
    exact hothers m hmlt x hx
  -- membership in the new table
  have hmemiff : ∀ x, x ∈ tblElems
      (⟨t.slots.set p (.full e), t.cnt + 1,
        if (slotAt t.slots p).isDeleted then t.tomb - 1 else t.tomb⟩ : ProbingTable) ↔
      x ∈ tblElems t ∨ x = e := by
    intro x
    rw [mem_tblElems, mem_tblElems]
    constructor
    · rintro ⟨r, hr, hfr⟩
      rw [hlen] at hr
      by_cases hrp : r = p
      · subst hrp
        rw [slotAt_set_self hr] at hfr
        right
        cases hfr
        rfl
      · rw [slotAt_set_ne (fun hc => hrp hc.symm)] at hfr
        exact Or.inl ⟨r, hr, hfr⟩
    · rintro (⟨r, hr, hfr⟩ | rfl)
      · have hrp : r ≠ p := by
          intro hc
          subst hc
          rw [hfr] at hpnf
          cases hpnf
        refine ⟨r, by rw [hlen]; exact hr, ?_⟩
        rw [slotAt_set_ne (fun hc => hrp hc.symm)]
        exact hfr
      · exact ⟨p, by rw [hlen]; exact hp, slotAt_set_self hp _⟩
  -- the new table is well-formed
  have hwf' : TblWF hsh
      (⟨t.slots.set p (.full e), t.cnt + 1,
        if (slotAt t.slots p).isDeleted then t.tomb - 1 else t.tomb⟩ : ProbingTable) := by
    refine ⟨?_, ?_, ?_, ?_⟩
    · simp only
      rw [countFull_set_full hp hpnf, hcnt]
    · simp only
      rw [countDeleted_set_full hp]
      by_cases hd : (slotAt t.slots p).isDeleted
      · rw [if_pos hd, if_pos hd, htomb]
      · rw [if_neg hd, if_neg hd, htomb]
        simp
    · simp only [hlen]
      intro hpos
      by_cases hd : (slotAt t.slots p).isDeleted
      · rw [if_pos hd]
        have : 0 < countDeleted t.slots :=
          countDeleted_pos hp (Slot.eq_deleted_of (by
            intro hc
            rw [hc] at hd
            cases hd) hpnf)
        omega
      · rw [if_neg hd]
        omega
    · intro r hr
      rw [findOk]
      simp only [hlen] at hr
      cases hslr : slotAt (t.slots.set p (.full e)) r with
      | empty => rfl
      | deleted => rfl
      | full x =>
        rw [beq_iff_eq]
        by_cases hrp : r = p
        · subst hrp
          rw [slotAt_set_self hr] at hslr
          cases hslr
          exact hfind_new
        · rw [slotAt_set_ne (fun hc => hrp hc.symm)] at hslr
          have hfold := hwf.findable hr hslr
          obtain ⟨qs₁, qs₂, x₂, hqsplit, hqfull, hqk, hqpre⟩ := scanFind_some hfold
          rw [tblFindIdx]
          simp only [hlen]
          rw [hqsplit]
          refine scanFind_append_full ?_ ?_ hqk
          · intro m hm
            by_cases hmp : m = p
            · rw [hmp, slotAt_set_self hp]
              refine ⟨(by intro hc; cases hc), ?_⟩
              intro e₂ he₂
              cases he₂
              intro hk
              exact hothers r hr x hslr hk.symm
            · rw [slotAt_set_ne (fun hc => hmp hc.symm)]
              exact hqpre m hm
          · rw [slotAt_set_ne (fun hc => hrp hc.symm)]
            exact hqfull
  refine ⟨rfl, hp, hpnf, rfl, rfl, hlen, hwf', hfind_new, slotAt_set_self hp _,
    hmemiff, ?_⟩
  intro hd0
  show countDeleted (t.slots.set p (.full e)) = 0
  rw [countDeleted_set_full hp]
  omega

theorem tblElems_length (l : List Slot) :
    (l.filterMap fun s => match s with | .full e => some e | _ => none).length
      = countFull l := by
  induction l with
  | nil => rfl
  | cons s l ih =>
    cases s <;> simp [countFull, List.countP_cons, Slot.isFull, ← ih, countFull] at ih ⊢ <;>
      omega

theorem tblElems_pairwise_keys {hsh : Nat → Nat} {t : ProbingTable}
    (hwf : TblWF hsh t) :
    (tblElems t).Pairwise (fun a b => a.1 ≠ b.1) := by
  rw [tblElems, List.pairwise_filterMap, List.pairwise_iff_getElem]
  intro i j hi hj hij b hb b' hb'
  rw [Option.mem_def] at hb hb'
  have hfi : slotAt t.slots i = .full b := by
    rw [slotAt_eq_getElem hi]
    cases h : t.slots[i] <;> rw [h] at hb <;> (cases hb; try rfl)
  have hfj : slotAt t.slots j = .full b' := by
    rw [slotAt_eq_getElem hj]
    cases h : t.slots[j] <;> rw [h] at hb' <;> (cases hb'; try rfl)
  intro hk
  exact absurd (hwf.unique hi hj hfi hfj hk) (Nat.ne_of_lt hij)

theorem tblElems_emptyTable (cap : Nat) : tblElems (emptyTable cap) = [] := by
  rw [tblElems, List.filterMap_eq_nil_iff]
  intro a ha
  rw [(List.mem_replicate.mp ha).2]

theorem emptyTable_wf (hsh : Nat → Nat) (cap : Nat) : TblWF hsh (emptyTable cap) := by
  refine ⟨(countFull_replicate_empty cap).symm, (countDeleted_replicate_empty cap).symm,
    ?_, ?_⟩
  · intro h
    simpa using h
  · intro p hp
    rw [findOk]
    show (match slotAt (List.replicate cap .empty) p with
      | Slot.full e => tblFindIdx (hsh e.1) e.1 (emptyTable cap) == some p
      | _ => true) = true
    rw [slotAt_replicate_empty]

theorem fold_placeFresh_spec {hsh : Nat → Nat} (L : List (Nat × Nat)) :
    ∀ (t : ProbingTable), TblWF hsh t → countDeleted t.slots = 0 →
    (∀ x ∈ L, ¬ KeyIn t x.1) → L.Pairwise (fun a b => a.1 ≠ b.1) →
    t.cnt + L.length < t.slots.length →
    TblWF hsh (L.foldl (fun a e => (placeFresh hsh a e).1) t) ∧
    (L.foldl (fun a e => (placeFresh hsh a e).1) t).slots.length = t.slots.length ∧
    (L.foldl (fun a e => (placeFresh hsh a e).1) t).cnt = t.cnt + L.length ∧
    countDeleted (L.foldl (fun a e => (placeFresh hsh a e).1) t).slots = 0 ∧
    (∀ x, x ∈ tblElems (L.foldl (fun a e => (placeFresh hsh a e).1) t) ↔
      x ∈ tblElems t ∨ x ∈ L) := by
  induction L with
  | nil =>
    intro t hwf hnd habs hpw hload
    refine ⟨hwf, rfl, rfl, hnd, ?_⟩
    simp
  | cons e L ih =>
    intro t hwf hnd habs hpw hload
    have hload1 : t.cnt + t.tomb + 1 < t.slots.length := by
      have := hwf.2.1
      simp only [List.length_cons] at hload
      omega
    obtain ⟨-, hp, hpnf, hslots1, hcnt1, hlen1, hwf1, hfind1, hat1, hmem1, hnd1⟩ :=
      placeFresh_spec hwf (habs e (by simp)) hload1
    rw [List.foldl_cons]
    have hpcons := List.pairwise_cons.mp hpw
    have habs1 : ∀ x ∈ L, ¬ KeyIn (placeFresh hsh t e).1 x.1 := by
      intro x hx ⟨y, hy, hyk⟩
      rcases (hmem1 y).mp hy with hyold | rfl
      · exact habs x (by simp [hx]) ⟨y, hyold, hyk⟩
      · exact hpcons.1 x hx hyk
    have hload2 : (placeFresh hsh t e).1.cnt + L.length <
        (placeFresh hsh t e).1.slots.length := by
      rw [hcnt1, hlen1]
      simp only [List.length_cons] at hload
      omega
    obtain ⟨hwfF, hlenF, hcntF, hndF, hmemF⟩ :=
      ih (placeFresh hsh t e).1 hwf1 (hnd1 hnd) habs1 hpcons.2 hload2
    refine ⟨hwfF, by rw [hlenF, hlen1], ?_, hndF, ?_⟩
    · rw [hcntF, hcnt1]
      simp only [List.length_cons]
      omega
    · intro x
      rw [hmemF x, hmem1 x, List.mem_cons]
      tauto

theorem tblRehash_spec {hsh : Nat → Nat} {t : ProbingTable} (hwf : TblWF hsh t)
    (target : Nat) :
    TblWF hsh (tblRehash hsh t target) ∧
    (tblRehash hsh t target).cnt = t.cnt ∧
    countDeleted (tblRehash hsh t target).slots = 0 ∧
    (tblRehash hsh t target).slots.length =
      nextPow2 (max target ((maxLoadDen * t.cnt + (maxLoadNum - 1)) / maxLoadNum)) ∧
    (∀ x, x ∈ tblElems (tblRehash hsh t target) ↔ x ∈ tblElems t) := by
  have hlenL : (tblElems t).length = countFull t.slots := tblElems_length t.slots
  have hcap : t.cnt <
      nextPow2 (max target ((maxLoadDen * t.cnt + (maxLoadNum - 1)) / maxLoadNum)) := by
    have hge := nextPow2_ge (max target ((maxLoadDen * t.cnt + (maxLoadNum - 1)) / maxLoadNum))
    have hpos := nextPow2_pos (max target ((maxLoadDen * t.cnt + (maxLoadNum - 1)) / maxLoadNum))
    have hrw : (maxLoadDen * t.cnt + (maxLoadNum - 1)) / maxLoadNum =
        (8 * t.cnt + 6) / 7 := by
      rw [maxLoadDen, maxLoadNum]
    have hmax : (8 * t.cnt + 6) / 7 ≤
        max target ((maxLoadDen * t.cnt + (maxLoadNum - 1)) / maxLoadNum) :=
      hrw ▸ le_max_right _ _
    rcases Nat.eq_zero_or_pos t.cnt with hz | hpos2
    · omega
    · have hup : t.cnt + 1 ≤ (8 * t.cnt + 6) / 7 := by omega
      omega
  have hfold := fold_placeFresh_spec (tblElems t)
    (emptyTable (nextPow2 (max target ((maxLoadDen * t.cnt + (maxLoadNum - 1)) / maxLoadNum))))
    (emptyTable_wf hsh _) (countDeleted_replicate_empty _)
    (by
      intro x hx ⟨y, hy, hyk⟩
      rw [tblElems_emptyTable] at hy
      cases hy)
    (tblElems_pairwise_keys hwf)
    (by
      show 0 + (tblElems t).length < (List.replicate _ Slot.empty).length
      rw [List.length_replicate, hlenL, ← hwf.1]
      omega)
  rw [tblRehash]
  obtain ⟨hwfF, hlenF, hcntF, hndF, hmemF⟩ := hfold
  refine ⟨hwfF, ?_, hndF, ?_, ?_⟩
  · rw [hcntF]
    show 0 + (tblElems t).length = t.cnt
    rw [hlenL, ← hwf.1]
    omega
  · rw [hlenF]
    exact List.length_replicate _ _
  · intro x
    rw [hmemF x, tblElems_emptyTable]
    simp

theorem growIfNeeded_spec {hsh : Nat → Nat} {t : ProbingTable} (hwf : TblWF hsh t) :
    TblWF hsh (growIfNeeded hsh t) ∧
    (growIfNeeded hsh t).cnt + (growIfNeeded hsh t).tomb + 1 <
      (growIfNeeded hsh t).slots.length ∧
    (growIfNeeded hsh t).cnt = t.cnt ∧
    (∀ x, x ∈ tblElems (growIfNeeded hsh t) ↔ x ∈ tblElems t) := by
  rw [growIfNeeded]
  by_cases hg : maxLoadNum * t.slots.length < maxLoadDen * (t.cnt + t.tomb + 1)
  · rw [if_pos hg]
    obtain ⟨hwfR, hcntR, hndR, hlenR, hmemR⟩ :=
      tblRehash_spec hwf (max (2 * t.slots.length) 16)
    refine ⟨hwfR, ?_, hcntR, hmemR⟩
    have htombR : (tblRehash hsh t (max (2 * t.slots.length) 16)).tomb = 0 := by
      rw [hwfR.2.1, hndR]
    rw [htombR, hcntR, hlenR]
    have hge := nextPow2_ge (max (max (2 * t.slots.length) 16)
      ((maxLoadDen * t.cnt + (maxLoadNum - 1)) / maxLoadNum))
    have h16 : (16 : Nat) ≤ max (max (2 * t.slots.length) 16)
        ((maxLoadDen * t.cnt + (maxLoadNum - 1)) / maxLoadNum) :=
      le_trans (le_max_right _ _) (le_max_left _ _)
    have h2l : 2 * t.slots.length ≤ max (max (2 * t.slots.length) 16)
        ((maxLoadDen * t.cnt + (maxLoadNum - 1)) / maxLoadNum) :=
      le_trans (le_max_left _ _) (le_max_left _ _)
    rcases Nat.eq_zero_or_pos t.cnt with hz | hpos
    · omega
    · have hcf : 1 ≤ countFull t.slots := by
        rw [← hwf.1]
        exact hpos
      have hle : countFull t.slots ≤ t.slots.length := List.countP_le_length _
      have hload := hwf.2.2.1 (by omega)
      omega
  · rw [if_neg hg]
    refine ⟨hwf, ?_, rfl, fun x => Iff.rfl⟩
    rw [maxLoadNum, maxLoadDen] at hg
    push_neg at hg
    omega

theorem tblInsert_found {hsh : Nat → Nat} {t : ProbingTable} {e : Nat × Nat}
    (hwf : TblWF hsh t) (hin : KeyIn t e.1) :
    ∃ p x, tblInsert hsh t e = (t, p, false) ∧ p < t.slots.length ∧
      slotAt t.slots p = .full x ∧ x.1 = e.1 := by
  obtain ⟨p, x, hfind, hfull, hxk⟩ := hwf.keyIn_find hin
  refine ⟨p, x, ?_, (tblFindIdx_some hfind).1, hfull, hxk⟩
  rw [tblInsert, hfind]

theorem tblInsert_new {hsh : Nat → Nat} {t : ProbingTable} {e : Nat × Nat}
    (hwf : TblWF hsh t) (habs : ¬ KeyIn t e.1) :
    (tblInsert hsh t e).2.2 = true ∧
    TblWF hsh (tblInsert hsh t e).1 ∧
    (tblInsert hsh t e).1.cnt = t.cnt + 1 ∧
    (∀ x, x ∈ tblElems (tblInsert hsh t e).1 ↔ x ∈ tblElems t ∨ x = e) ∧
    slotAt (tblInsert hsh t e).1.slots (tblInsert hsh t e).2.1 = .full e ∧
    (tblInsert hsh t e).2.1 < (tblInsert hsh t e).1.slots.length := by
  rw [tblInsert, tblFindIdx_none_of_absent habs]
  obtain ⟨hwfG, hloadG, hcntG, hmemG⟩ := growIfNeeded_spec hwf
  have habsG : ¬ KeyIn (growIfNeeded hsh t) e.1 := by
    rintro ⟨y, hy, hyk⟩
    exact habs ⟨y, (hmemG y).mp hy, hyk⟩
  obtain ⟨hT, hpG, hnfG, hslG, hcntP, hlenP, hwfP, hfindP, hatP, hmemP, -⟩ :=
    placeFresh_spec hwfG habsG hloadG
  refine ⟨hT, hwfP, ?_, ?_, hatP, ?_⟩
  · rw [hcntP, hcntG]
  · intro x
    rw [hmemP x, hmemG x]
  · rw [hlenP]
    exact hpG

theorem tblErase_found {hsh : Nat → Nat} {t : ProbingTable} {k : Nat}
    (hwf : TblWF hsh t) (hin : KeyIn t k) :
    (tblErase hsh t k).2 = true ∧
    TblWF hsh (tblErase hsh t k).1 ∧
    (tblErase hsh t k).1.cnt = t.cnt - 1 ∧ 1 ≤ t.cnt ∧
    (tblErase hsh t k).1.slots.length = t.slots.length ∧
    (∀ x, x ∈ tblElems (tblErase hsh t k).1 ↔ x ∈ tblElems t ∧ x.1 ≠ k) ∧
    ¬ KeyIn (tblErase hsh t k).1 k := by
  obtain ⟨p, x, hfind, hfull, hxk⟩ := hwf.keyIn_find hin
  have hp : p < t.slots.length := (tblFindIdx_some hfind).1
  have hres : tblErase hsh t k =
      (⟨t.slots.set p .deleted, t.cnt - 1, t.tomb + 1⟩, true) := by
    rw [tblErase, hfind]
  rw [hres]
  have hlen : (t.slots.set p .deleted).length = t.slots.length := List.length_set ..
  have hcpos : 1 ≤ t.cnt := by
    rw [hwf.1]
    exact countFull_pos hp hfull
  have hmemiff : ∀ y, y ∈ tblElems
      (⟨t.slots.set p .deleted, t.cnt - 1, t.tomb + 1⟩ : ProbingTable) ↔
      y ∈ tblElems t ∧ y.1 ≠ k := by
    intro y
    rw [mem_tblElems, mem_tblElems]
    constructor
    · rintro ⟨r, hr, hfr⟩
      rw [hlen] at hr
      have hrp : r ≠ p := by
        intro hc
        rw [hc, slotAt_set_self hp] at hfr
        cases hfr
      rw [slotAt_set_ne (fun hc => hrp hc.symm)] at hfr
      refine ⟨⟨r, hr, hfr⟩, ?_⟩
      intro hyk
      exact hrp (hwf.unique hr hp hfr hfull (by rw [hyk, hxk]))
    · rintro ⟨⟨r, hr, hfr⟩, hyk⟩
      have hrp : r ≠ p := by
        intro hc
        rw [hc, hfull] at hfr
        cases hfr
        exact hyk hxk
      refine ⟨r, by rw [hlen]; exact hr, ?_⟩
      rw [slotAt_set_ne (fun hc => hrp hc.symm)]
      exact hfr
  refine ⟨rfl, ?_, rfl, hcpos, hlen, hmemiff, ?_⟩
  · refine ⟨?_, ?_, ?_, ?_⟩
    · show t.cnt - 1 = countFull (t.slots.set p .deleted)
      rw [countFull_set_deleted hp hfull, hwf.1]
    · show t.tomb + 1 = countDeleted (t.slots.set p .deleted)
      rw [countDeleted_set_deleted hp hfull, hwf.2.1]
    · show 0 < (t.slots.set p .deleted).length →
        t.cnt - 1 + (t.tomb + 1) < (t.slots.set p .deleted).length
      rw [hlen]
      intro hpos
      have := hwf.2.2.1 hpos
      omega
    · intro r hr
      rw [findOk]
      simp only [hlen] at hr
      cases hslr : slotAt (t.slots.set p .deleted) r with
      | empty => rfl
      | deleted => rfl
      | full y =>
        rw [beq_iff_eq]
        have hrp : r ≠ p := by
          intro hc
          rw [hc, slotAt_set_self hp] at hslr
          cases hslr
        rw [slotAt_set_ne (fun hc => hrp hc.symm)] at hslr
        have hfold := hwf.findable hr hslr
        obtain ⟨qs₁, qs₂, y₂, hqsplit, hqfull, hqk, hqpre⟩ := scanFind_some hfold
        rw [tblFindIdx]
        simp only [hlen]
        rw [hqsplit]
        refine scanFind_append_full ?_ ?_ hqk
        · intro m hm
          by_cases hmp : m = p
          · rw [hmp, slotAt_set_self hp]
            exact ⟨(by intro hc; cases hc), (by intro e₂ he₂; cases he₂)⟩
          · rw [slotAt_set_ne (fun hc => hmp hc.symm)]
            exact hqpre m hm
        · rw [slotAt_set_ne (fun hc => hrp hc.symm)]
          exact hqfull
  · rintro ⟨y, hy, hyk⟩
    exact ((hmemiff y).mp hy).2 hyk

theorem tblErase_absent {hsh : Nat → Nat} {t : ProbingTable} {k : Nat}
    (habs : ¬ KeyIn t k) : tblErase hsh t k = (t, false) := by
  rw [tblErase, tblFindIdx_none_of_absent habs]

theorem list_set_getElem_self {α : Type} (l : List α) (i : Nat) (h : i < l.length) :
    l.set i l[i] = l := by
  apply List.ext_getElem
  · simp
  · intro n h1 h2
    rw [List.getElem_set]
    split
    · simp_all
    · rfl

theorem sum_map_cnt_set (l : List ProbingTable) (i : Nat) (t : ProbingTable)
    (h : i < l.length) :
    ((l.set i t).map ProbingTable.cnt).sum + l[i].cnt =
      (l.map ProbingTable.cnt).sum + t.cnt := by
  induction l generalizing i with
  | nil => cases h
  | cons a l ih =>
    cases i with
    | zero => simp [List.set, Nat.add_comm, Nat.add_left_comm]
    | succ j =>
      have hj : j < l.length := by simpa using h
      have := ih j hj
      simp only [List.set, List.map_cons, List.sum_cons, List.getElem_cons_succ]
      omega

namespace ParallelHashSet

theorem shardAt_eq_getElem {s : ParallelHashSet} {i : Nat} (hi : i < s.shards.length) :
    shardAt s i = s.shards[i] := List.getD_eq_getElem s.shards (emptyTable 0) hi

theorem shardAt_set_self {s : ParallelHashSet} {i : Nat} (hi : i < s.shards.length)
    (t : ProbingTable) :
    shardAt (⟨s.shards.set i t⟩ : ParallelHashSet) i = t := by
  rw [shardAt, List.getD_eq_getElem _ _ (by simpa using hi), List.getElem_set]
  simp

theorem shardAt_set_ne {s : ParallelHashSet} {i j : Nat} (hij : i ≠ j)
    (t : ProbingTable) :
    shardAt (⟨s.shards.set i t⟩ : ParallelHashSet) j = shardAt s j := by
  simp [shardAt, List.getD_eq_getElem?_getD, List.getElem?_set, hij]

theorem mem_elems {s : ParallelHashSet} {x : Nat × Nat} :
    x ∈ elems s ↔ ∃ i, i < s.shards.length ∧ x ∈ tblElems (shardAt s i) := by
  rw [elems, List.mem_flatMap]
  constructor
  · rintro ⟨t, ht, hx⟩
    obtain ⟨i, hi, rfl⟩ := List.mem_iff_getElem.mp ht
    exact ⟨i, hi, by rwa [shardAt_eq_getElem hi]⟩
  · rintro ⟨i, hi, hx⟩
    exact ⟨s.shards[i], List.getElem_mem hi, by rwa [shardAt_eq_getElem hi] at hx⟩

theorem routeOk_of {hsh : Nat → Nat} {s : ParallelHashSet} {i p : Nat}
    (h : ∀ e, slotAt (shardAt s i).slots p = .full e →
      subidx (hsh e.1) s.shards.length = i) : routeOk hsh s i p = true := by
  rw [routeOk]
  cases hs : slotAt (shardAt s i).slots p with
  | empty => rfl
  | deleted => rfl
  | full e => exact beq_iff_eq.mpr (h e hs)

theorem ParWF.route {hsh : Nat → Nat} {s : ParallelHashSet} (hwf : ParWF hsh s)
    {i p : Nat} (hi : i < s.shards.length) (hp : p < (shardAt s i).slots.length)
    {e : Nat × Nat} (hf : slotAt (shardAt s i).slots p = .full e) :
    subidx (hsh e.1) s.shards.length = i := by
  have h := hwf.2.2 i hi p hp
  rw [routeOk, hf] at h
  exact beq_iff_eq.mp h

theorem ParWF.mem_route {hsh : Nat → Nat} {s : ParallelHashSet} (hwf : ParWF hsh s)
    {i : Nat} (hi : i < s.shards.length) {x : Nat × Nat}
    (hx : x ∈ tblElems (shardAt s i)) :
    subidx (hsh x.1) s.shards.length = i := by
  obtain ⟨p, hp, hf⟩ := mem_tblElems.mp hx
  exact hwf.route hi hp hf

theorem ParWF.keyIn_shard {hsh : Nat → Nat} {s : ParallelHashSet} (hwf : ParWF hsh s)
    {k : Nat} :
    keyInSet s k ↔ KeyIn (shardAt s (subidx (hsh k) s.shards.length)) k := by
  constructor
  · rintro ⟨x, hx, hxk⟩
    obtain ⟨i, hi, hxi⟩ := mem_elems.mp hx
    have hr := hwf.mem_route hi hxi
    rw [hxk] at hr
    rw [hr]
    exact ⟨x, hxi, hxk⟩
  · rintro ⟨x, hx, hxk⟩
    have hi0 : subidx (hsh k) s.shards.length < s.shards.length :=
      Nat.mod_lt _ hwf.1
    exact ⟨x, mem_elems.mpr ⟨_, hi0, hx⟩, hxk⟩

theorem ParWF.contains_iff {hsh : Nat → Nat} {s : ParallelHashSet} (hwf : ParWF hsh s)
    {k : Nat} : contains hsh s k = true ↔ keyInSet s k := by
  have hiff : contains hsh s k =
      (tblFindIdx (hsh k) k (shardAt s (subidx (hsh k) s.shards.length))).isSome := by
    show ((tblFindIdx (hsh k) k (shardAt s (subidx (hsh k) s.shards.length))).map
      (fun p => (subidx (hsh k) s.shards.length, p))).isSome = _
    cases tblFindIdx (hsh k) k (shardAt s (subidx (hsh k) s.shards.length)) <;> rfl
  rw [hiff]
  constructor
  · intro h
    obtain ⟨p, hp⟩ := Option.isSome_iff_exists.mp h
    obtain ⟨hplt, e, hfull, hek⟩ := tblFindIdx_some hp
    exact hwf.keyIn_shard.mpr ⟨e, mem_tblElems.mpr ⟨p, hplt, hfull⟩, hek⟩
  · intro h
    have hi0 : subidx (hsh k) s.shards.length < s.shards.length :=
      Nat.mod_lt _ hwf.1
    obtain ⟨p, e, hfind, -, -⟩ :=
      (hwf.2.1 _ hi0).keyIn_find (hwf.keyIn_shard.mp h)
    rw [hfind]
    rfl

theorem ParWF.find_none {hsh : Nat → Nat} {s : ParallelHashSet} (hwf : ParWF hsh s)
    {k : Nat} (habs : ¬ keyInSet s k) : find hsh s k = none := by
  have habs2 : ¬ KeyIn (shardAt s (subidx (hsh k) s.shards.length)) k :=
    fun hin => habs (hwf.keyIn_shard.mpr hin)
  show (tblFindIdx (hsh k) k (shardAt s (subidx (hsh k) s.shards.length))).map
      (fun p => (subidx (hsh k) s.shards.length, p)) = none
  rw [tblFindIdx_none_of_absent habs2]
  rfl

theorem ParWF.getStored_eq {hsh : Nat → Nat} {s : ParallelHashSet} (hwf : ParWF hsh s)
    {x : Nat × Nat} {k : Nat} (hx : x ∈ elems s) (hxk : x.1 = k) :
    getStored hsh s k = some x := by
  obtain ⟨i, hi, hxi⟩ := mem_elems.mp hx
  have hr := hwf.mem_route hi hxi
  rw [hxk] at hr
  obtain ⟨p, hp, hfull⟩ := mem_tblElems.mp hxi
  have hfind : tblFindIdx (hsh k) k (shardAt s i) = some p := by
    have := (hwf.2.1 i hi).findable hp hfull
    rwa [hxk] at this
  have hfindP : find hsh s k = some (i, p) := by
    show (tblFindIdx (hsh k) k (shardAt s (subidx (hsh k) s.shards.length))).map
        (fun q => (subidx (hsh k) s.shards.length, q)) = some (i, p)
    rw [hr, hfind]
    rfl
  rw [getStored, hfindP]
  show (match slotAt (shardAt s i).slots p with
    | Slot.full e => some e
    | _ => none) = some x
  simp only [hfull]

theorem length_shards_set {s : ParallelHashSet} (i : Nat) (T : ProbingTable) :
    (⟨s.shards.set i T⟩ : ParallelHashSet).shards.length = s.shards.length := by
  show (s.shards.set i T).length = s.shards.length
  exact List.length_set ..

theorem mem_elems_set {s : ParallelHashSet} {i : Nat} (hi : i < s.shards.length)
    (T : ProbingTable) (x : Nat × Nat) :
    x ∈ elems (⟨s.shards.set i T⟩ : ParallelHashSet) ↔
      x ∈ tblElems T ∨
      ∃ j, j < s.shards.length ∧ j ≠ i ∧ x ∈ tblElems (shardAt s j) := by
  rw [mem_elems]
  constructor
  · rintro ⟨j, hj, hx⟩
    rw [length_shards_set] at hj
    by_cases hji : j = i
    · rw [hji, shardAt_set_self hi] at hx
      exact Or.inl hx
    · rw [shardAt_set_ne (fun hc => hji hc.symm)] at hx
      exact Or.inr ⟨j, hj, hji, hx⟩
  · rintro (hx | ⟨j, hj, hji, hx⟩)
    · exact ⟨i, by rw [length_shards_set]; exact hi, by rwa [shardAt_set_self hi]⟩
    · exact ⟨j, by rw [length_shards_set]; exact hj,
        by rwa [shardAt_set_ne (fun hc => hji hc.symm)]⟩

theorem ParWF.update {hsh : Nat → Nat} {s : ParallelHashSet} (hwf : ParWF hsh s)
    {i : Nat} (hi : i < s.shards.length) {T : ProbingTable} (hwfT : TblWF hsh T)
    (hroute : ∀ x ∈ tblElems T, subidx (hsh x.1) s.shards.length = i) :
    ParWF hsh (⟨s.shards.set i T⟩ : ParallelHashSet) := by
  refine ⟨?_, ?_, ?_⟩
  · rw [length_shards_set]
    exact hwf.1
  · intro j hj
    rw [length_shards_set] at hj
    by_cases hji : j = i
    · rw [hji, shardAt_set_self hi]
      exact hwfT
    · rw [shardAt_set_ne (fun hc => hji hc.symm)]
      exact hwf.2.1 j hj
  · intro j hj p hp
    rw [length_shards_set] at hj
    refine routeOk_of ?_
    intro x hx
    rw [length_shards_set]
    by_cases hji : j = i
    · rw [hji] at hp hx ⊢
      rw [shardAt_set_self hi] at hp hx
      exact hroute x (mem_tblElems.mpr ⟨p, hp, hx⟩)
    · rw [shardAt_set_ne (fun hc => hji hc.symm)] at hp hx
      exact hwf.route hj hp hx

theorem elems_split_at {s : ParallelHashSet} {i : Nat} (hi : i < s.shards.length)
    (x : Nat × Nat) :
    x ∈ elems s ↔ x ∈ tblElems (shardAt s i) ∨
      ∃ j, j < s.shards.length ∧ j ≠ i ∧ x ∈ tblElems (shardAt s j) := by
  rw [mem_elems]
  constructor
  · rintro ⟨j, hj, hx⟩
    by_cases hji : j = i
    · rw [hji] at hx
      exact Or.inl hx
    · exact Or.inr ⟨j, hj, hji, hx⟩
  · rintro (hx | ⟨j, hj, _, hx⟩)
    · exact ⟨i, hi, hx⟩
    · exact ⟨j, hj, hx⟩

theorem insert_found {hsh : Nat → Nat} {s : ParallelHashSet} {e : Nat × Nat}
    (hwf : ParWF hsh s) (hin : keyInSet s e.1) :
    insert hsh s e = (s, false) := by
  have hi0 : subidx (hsh e.1) s.shards.length < s.shards.length :=
    Nat.mod_lt _ hwf.1
  obtain ⟨p, x, hres, hp, hfull, hxk⟩ :=
    tblInsert_found (hwf.2.1 _ hi0) (hwf.keyIn_shard.mp hin)
  show (⟨s.shards.set (subidx (hsh e.1) s.shards.length)
      (tblInsert hsh (shardAt s (subidx (hsh e.1) s.shards.length)) e).1⟩,
    (tblInsert hsh (shardAt s (subidx (hsh e.1) s.shards.length)) e).2.2)
    = ((s : ParallelHashSet), false)
  rw [hres]
  show (⟨s.shards.set (subidx (hsh e.1) s.shards.length)
      (shardAt s (subidx (hsh e.1) s.shards.length))⟩, false)
    = ((s : ParallelHashSet), false)
  rw [shardAt_eq_getElem hi0, list_set_getElem_self]

theorem insert_new {hsh : Nat → Nat} {s : ParallelHashSet} {e : Nat × Nat}
    (hwf : ParWF hsh s) (habs : ¬ keyInSet s e.1) :
    (insert hsh s e).2 = true ∧
    ParWF hsh (insert hsh s e).1 ∧
    (insert hsh s e).1.shards.length = s.shards.length ∧
    size (insert hsh s e).1 = size s + 1 ∧
    (∀ x, x ∈ elems (insert hsh s e).1 ↔ x ∈ elems s ∨ x = e) := by
  have hN := hwf.1
  have hi0 : subidx (hsh e.1) s.shards.length < s.shards.length := Nat.mod_lt _ hN
  have hwfT := hwf.2.1 _ hi0
  have habsT : ¬ KeyIn (shardAt s (subidx (hsh e.1) s.shards.length)) e.1 :=
    fun hin => habs (hwf.keyIn_shard.mpr hin)
  obtain ⟨hins, hwfT2, hcntT, hmemT, hatT, hpT⟩ := tblInsert_new hwfT habsT
  have hres : insert hsh s e =
      (⟨s.shards.set (subidx (hsh e.1) s.shards.length)
        (tblInsert hsh (shardAt s (subidx (hsh e.1) s.shards.length)) e).1⟩,
       (tblInsert hsh (shardAt s (subidx (hsh e.1) s.shards.length)) e).2.2) := rfl
  rw [hres]
  refine ⟨hins, ?_, length_shards_set .., ?_, ?_⟩
  · refine hwf.update hi0 hwfT2 ?_
    intro x hx
    rcases (hmemT x).mp hx with hxold | rfl
    · exact hwf.mem_route hi0 hxold
    · rfl
  · show size (⟨s.shards.set (subidx (hsh e.1) s.shards.length)
        (tblInsert hsh (shardAt s (subidx (hsh e.1) s.shards.length)) e).1⟩ :
        ParallelHashSet) = size s + 1
    have hsum := sum_map_cnt_set s.shards (subidx (hsh e.1) s.shards.length)
      (tblInsert hsh (shardAt s (subidx (hsh e.1) s.shards.length)) e).1 hi0
    rw [← shardAt_eq_getElem hi0] at hsum
    show ((s.shards.set (subidx (hsh e.1) s.shards.length)
        (tblInsert hsh (shardAt s (subidx (hsh e.1) s.shards.length)) e).1).map
        ProbingTable.cnt).sum = (s.shards.map ProbingTable.cnt).sum + 1
    omega
  · intro x
    rw [mem_elems_set hi0]
    constructor
    · rintro (hx | ⟨j, hj, hji, hx⟩)
      · rcases (hmemT x).mp hx with hxold | rfl
        · exact Or.inl ((elems_split_at hi0 x).mpr (Or.inl hxold))
        · exact Or.inr rfl
      · exact Or.inl ((elems_split_at hi0 x).mpr (Or.inr ⟨j, hj, hji, hx⟩))
    · rintro (hx | rfl)
      · rcases (elems_split_at hi0 x).mp hx with hx0 | ⟨j, hj, hji, hxj⟩
        · exact Or.inl ((hmemT x).mpr (Or.inl hx0))
        · exact Or.inr ⟨j, hj, hji, hxj⟩
      · exact Or.inl ((hmemT x).mpr (Or.inr rfl))

theorem erase_spec {hsh : Nat → Nat} {s : ParallelHashSet} {k : Nat}
    (hwf : ParWF hsh s) :
    find hsh (erase hsh s k).1 k = none ∧
    contains hsh (erase hsh s k).1 k = false ∧
    ParWF hsh (erase hsh s k).1 ∧
    (erase hsh s k).1.shards.length = s.shards.length ∧
    (∀ x, x ∈ elems (erase hsh s k).1 ↔ x ∈ elems s ∧ x.1 ≠ k) ∧
    ((erase hsh s k).2 = true ↔ keyInSet s k) := by
  have hN := hwf.1
  have hi0 : subidx (hsh k) s.shards.length < s.shards.length := Nat.mod_lt _ hN
  have hwfT := hwf.2.1 _ hi0
  have hres : erase hsh s k =
      (⟨s.shards.set (subidx (hsh k) s.shards.length)
        (tblErase hsh (shardAt s (subidx (hsh k) s.shards.length)) k).1⟩,
       (tblErase hsh (shardAt s (subidx (hsh k) s.shards.length)) k).2) := rfl
  by_cases hin : keyInSet s k
  · obtain ⟨htrue, hwfT2, hcntT, hcpos, hlenT, hmemT, habsT2⟩ :=
      tblErase_found hwfT (hwf.keyIn_shard.mp hin)
    rw [hres]
    have hwf2 : ParWF hsh
        (⟨s.shards.set (subidx (hsh k) s.shards.length)
          (tblErase hsh (shardAt s (subidx (hsh k) s.shards.length)) k).1⟩ :
          ParallelHashSet) := by
      refine hwf.update hi0 hwfT2 ?_
      intro x hx
      exact hwf.mem_route hi0 ((hmemT x).mp hx).1
    have hmem2 : ∀ x, x ∈ elems
        (⟨s.shards.set (subidx (hsh k) s.shards.length)
          (tblErase hsh (shardAt s (subidx (hsh k) s.shards.length)) k).1⟩ :
          ParallelHashSet) ↔ x ∈ elems s ∧ x.1 ≠ k := by
      intro x
      rw [mem_elems_set hi0]
      constructor
      · rintro (hx | ⟨j, hj, hji, hx⟩)
        · obtain ⟨hxold, hxk⟩ := (hmemT x).mp hx
          exact ⟨(elems_split_at hi0 x).mpr (Or.inl hxold), hxk⟩
        · refine ⟨(elems_split_at hi0 x).mpr (Or.inr ⟨j, hj, hji, hx⟩), ?_⟩
          intro hxk
          have := hwf.mem_route hj hx
          rw [hxk] at this
          exact hji this.symm
      · rintro ⟨hx, hxk⟩
        rcases (elems_split_at hi0 x).mp hx with hx0 | ⟨j, hj, hji, hxj⟩
        · exact Or.inl ((hmemT x).mpr ⟨hx0, hxk⟩)
        · exact Or.inr ⟨j, hj, hji, hxj⟩
    have hnotin2 : ¬ keyInSet
        (⟨s.shards.set (subidx (hsh k) s.shards.length)
          (tblErase hsh (shardAt s (subidx (hsh k) s.shards.length)) k).1⟩ :
          ParallelHashSet) k := by
      rintro ⟨x, hx, hxk⟩
      exact ((hmem2 x).mp hx).2 hxk
    refine ⟨hwf2.find_none hnotin2, ?_, hwf2, length_shards_set .., hmem2, ?_⟩
    · rw [contains, hwf2.find_none hnotin2]
      rfl
    · simp [htrue, hin]
  · have habsT : ¬ KeyIn (shardAt s (subidx (hsh k) s.shards.length)) k :=
      fun hi => hin (hwf.keyIn_shard.mpr hi)
    have hres2 : erase hsh s k = (s, false) := by
      rw [hres, tblErase_absent habsT]
      show (⟨s.shards.set (subidx (hsh k) s.shards.length)
          (shardAt s (subidx (hsh k) s.shards.length))⟩, false)
        = ((s : ParallelHashSet), false)
      rw [shardAt_eq_getElem hi0, list_set_getElem_self]
    rw [hres2]
    refine ⟨hwf.find_none hin, ?_, hwf, rfl, ?_, ?_⟩
    · rw [contains, hwf.find_none hin]
      rfl
    · intro x
      constructor
      · intro hx
        refine ⟨hx, ?_⟩
        intro hxk
        exact hin ⟨x, hx, hxk⟩
      · exact fun h => h.1
    · simp [hin]

theorem ParWF.mem_shards_wf {hsh : Nat → Nat} {s : ParallelHashSet}
    (hwf : ParWF hsh s) {t : ProbingTable} (ht : t ∈ s.shards) : TblWF hsh t := by
  obtain ⟨i, hi, rfl⟩ := List.mem_iff_getElem.mp ht
  rw [← shardAt_eq_getElem hi]
  exact hwf.2.1 i hi

theorem shardAt_map {s : ParallelHashSet} {i : Nat} (hi : i < s.shards.length)
    (f : ProbingTable → ProbingTable) :
    shardAt (⟨s.shards.map f⟩ : ParallelHashSet) i = f (shardAt s i) := by
  show (s.shards.map f).getD i (emptyTable 0) = f (s.shards.getD i (emptyTable 0))
  rw [List.getD_eq_getElem _ _ (by simpa using hi), List.getElem_map,
    List.getD_eq_getElem _ _ hi]

theorem rehash_spec {hsh : Nat → Nat} {s : ParallelHashSet} (hwf : ParWF hsh s)
    (target : Nat) :
    ParWF hsh (rehash hsh s target) ∧
    size (rehash hsh s target) = size s ∧
    (rehash hsh s target).shards.length = s.shards.length ∧
    (∀ x, x ∈ elems (rehash hsh s target) ↔ x ∈ elems s) := by
  have hlen : (rehash hsh s target).shards.length = s.shards.length := by
    show (s.shards.map _).length = s.shards.length
    exact List.length_map ..
  have hsh_at : ∀ i, i < s.shards.length →
      shardAt (rehash hsh s target) i =
        tblRehash hsh (shardAt s i) (target / s.shards.length) := by
    intro i hi
    exact shardAt_map hi _
  have hmem : ∀ x, x ∈ elems (rehash hsh s target) ↔ x ∈ elems s := by
    intro x
    rw [mem_elems, mem_elems]
    constructor
    · rintro ⟨i, hi, hx⟩
      rw [hlen] at hi
      rw [hsh_at i hi] at hx
      exact ⟨i, hi, ((tblRehash_spec (hwf.2.1 i hi) _).2.2.2.2 x).mp hx⟩
    · rintro ⟨i, hi, hx⟩
      refine ⟨i, by rw [hlen]; exact hi, ?_⟩
      rw [hsh_at i hi]
      exact ((tblRehash_spec (hwf.2.1 i hi) _).2.2.2.2 x).mpr hx
  refine ⟨⟨by rw [hlen]; exact hwf.1, ?_, ?_⟩, ?_, hlen, hmem⟩
  · intro i hi
    rw [hlen] at hi
    rw [hsh_at i hi]
    exact (tblRehash_spec (hwf.2.1 i hi) _).1
  · intro i hi p hp
    rw [hlen] at hi
    refine routeOk_of ?_
    intro x hx
    rw [hlen]
    rw [hsh_at i hi] at hp hx
    have hxm : x ∈ tblElems (tblRehash hsh (shardAt s i) (target / s.shards.length)) :=
      mem_tblElems.mpr ⟨p, hp, hx⟩
    have hxold := ((tblRehash_spec (hwf.2.1 i hi) _).2.2.2.2 x).mp hxm
    exact hwf.mem_route hi hxold
  · show ((s.shards.map fun t => tblRehash hsh t (target / s.shards.length)).map
      ProbingTable.cnt).sum = size s
    rw [List.map_map]
    rw [size]
    congr 1
    refine List.map_congr_left ?_
    intro t ht
    exact (tblRehash_spec (hwf.mem_shards_wf ht) _).2.1

theorem size_eq_sum_countFull {hsh : Nat → Nat} {s : ParallelHashSet}
    (hwf : ParWF hsh s) :
    size s = (s.shards.map (fun t => countFull t.slots)).sum := by
  rw [size]
  congr 1
  refine List.map_congr_left ?_
  intro t ht
  exact (hwf.mem_shards_wf ht).1

theorem elems_pairwise_keys {hsh : Nat → Nat} {s : ParallelHashSet}
    (hwf : ParWF hsh s) :
    (elems s).Pairwise (fun a b => a.1 ≠ b.1) := by
  rw [elems, List.pairwise_flatMap]
  constructor
  · intro t ht
    exact tblElems_pairwise_keys (hwf.mem_shards_wf ht)
  · rw [List.pairwise_iff_getElem]
    intro i j hi hj hij x hx y hy
    have hxr := hwf.mem_route hi (by rwa [shardAt_eq_getElem hi])
    have hyr := hwf.mem_route hj (by rwa [shardAt_eq_getElem hj])
    intro hk
    rw [hk] at hxr
    omega

theorem elems_nodup {hsh : Nat → Nat} {s : ParallelHashSet} (hwf : ParWF hsh s) :
    (elems s).Nodup := by
  refine (elems_pairwise_keys hwf).imp ?_
  intro a b hab hc
  exact hab (by rw [hc])

theorem keyInSet_insert_iff {hsh : Nat → Nat} {s : ParallelHashSet} {e : Nat × Nat}
    (hwf : ParWF hsh s) (k : Nat) :
    keyInSet (insert hsh s e).1 k ↔ keyInSet s k ∨ e.1 = k := by
  by_cases hin : keyInSet s e.1
  · rw [insert_found hwf hin]
    constructor
    · exact fun h => Or.inl h
    · rintro (h | rfl)
      · exact h
      · exact hin
  · obtain ⟨-, -, -, -, hmem⟩ := insert_new hwf hin
    constructor
    · rintro ⟨x, hx, hxk⟩
      rcases (hmem x).mp hx with hxo | rfl
      · exact Or.inl ⟨x, hxo, hxk⟩
      · exact Or.inr hxk
    · rintro (⟨x, hx, hxk⟩ | rfl)
      · exact ⟨x, (hmem x).mpr (Or.inl hx), hxk⟩
      · exact ⟨e, (hmem e).mpr (Or.inr rfl), rfl⟩

theorem insert_preserves {hsh : Nat → Nat} {s : ParallelHashSet} {e : Nat × Nat}
    (hwf : ParWF hsh s) :
    ParWF hsh (insert hsh s e).1 ∧
    (∀ x ∈ elems s, x ∈ elems (insert hsh s e).1) := by
  by_cases hin : keyInSet s e.1
  · rw [insert_found hwf hin]
    exact ⟨hwf, fun x hx => hx⟩
  · obtain ⟨-, hwf2, -, -, hmem⟩ := insert_new hwf hin
    exact ⟨hwf2, fun x hx => (hmem x).mpr (Or.inl hx)⟩

theorem insertList_spec {hsh : Nat → Nat} (l : List (Nat × Nat)) :
    ∀ (s : ParallelHashSet), ParWF hsh s →
    ParWF hsh (insertList hsh s l) ∧
    (∀ x ∈ elems s, x ∈ elems (insertList hsh s l)) ∧
    (∀ k, keyInSet (insertList hsh s l) k ↔ keyInSet s k ∨ ∃ y ∈ l, y.1 = k) := by
  induction l with
  | nil =>
    intro s hwf
    refine ⟨hwf, fun x hx => hx, ?_⟩
    intro k
    simp [insertList]
  | cons e l ih =>
    intro s hwf
    have hstep : insertList hsh s (e :: l) = insertList hsh (insert hsh s e).1 l := rfl
    rw [hstep]
    obtain ⟨hwf1, hmono1⟩ := insert_preserves (e := e) hwf
    obtain ⟨hwfF, hmonoF, hkeysF⟩ := ih (insert hsh s e).1 hwf1
    refine ⟨hwfF, fun x hx => hmonoF x (hmono1 x hx), ?_⟩
    intro k
    rw [hkeysF k, keyInSet_insert_iff hwf k]
    constructor
    · rintro ((h | rfl) | ⟨y, hy, hyk⟩)
      · exact Or.inl h
      · exact Or.inr ⟨e, by simp, rfl⟩
      · exact Or.inr ⟨y, by simp [hy], hyk⟩
    · rintro (h | ⟨y, hy, hyk⟩)
      · exact Or.inl (Or.inl h)
      · rcases List.mem_cons.mp hy with rfl | hy2
        · exact Or.inl (Or.inr hyk)
        · exact Or.inr ⟨y, hy2, hyk⟩

theorem elems_key_unique {hsh : Nat → Nat} {s : ParallelHashSet} (hwf : ParWF hsh s)
    {x y : Nat × Nat} (hx : x ∈ elems s) (hy : y ∈ elems s) (hk : x.1 = y.1) :
    x = y := by
  by_contra hne
  have hsym : Symmetric (fun a b : Nat × Nat => a.1 ≠ b.1) := by
    intro a b hab hc
    exact hab hc.symm
  exact (elems_pairwise_keys hwf).forall hsym hx hy hne hk

theorem merge_loop_spec {hsh : Nat → Nat} (L : List (Nat × Nat)) :
    ∀ (d s : ParallelHashSet), ParWF hsh d → ParWF hsh s →
    (∀ x ∈ L, x ∈ elems s) → L.Pairwise (fun a b => a.1 ≠ b.1) →
    ParWF hsh (L.foldl (mergeStep hsh) (d, s)).1 ∧
    ParWF hsh (L.foldl (mergeStep hsh) (d, s)).2 ∧
    (∀ x, x ∈ elems (L.foldl (mergeStep hsh) (d, s)).1 ↔
      x ∈ elems d ∨ (x ∈ L ∧ ¬ keyInSet d x.1)) ∧
    (∀ x, x ∈ elems (L.foldl (mergeStep hsh) (d, s)).2 ↔
      x ∈ elems s ∧ ¬ (x ∈ L ∧ ¬ keyInSet d x.1)) := by
  induction L with
  | nil =>
    intro d s hwfd hwfs hm hpw
    refine ⟨hwfd, hwfs, ?_, ?_⟩
    · intro x
      simp
    · intro x
      simp
  | cons e L ih =>
    intro d s hwfd hwfs hm hpw
    have hpcons := List.pairwise_cons.mp hpw
    have hfold : (e :: L).foldl (mergeStep hsh) (d, s) =
        L.foldl (mergeStep hsh) (mergeStep hsh (d, s) e) := rfl
    rw [hfold]
    by_cases hin : keyInSet d e.1
    · have hstep : mergeStep hsh (d, s) e = (d, s) := by
        show (if (insert hsh d e).2 then
          ((insert hsh d e).1, (erase hsh s e.1).1) else (d, s)) = (d, s)
        rw [insert_found hwfd hin]
        rfl
      rw [hstep]
      obtain ⟨hwfd2, hwfs2, hmemd, hmems⟩ :=
        ih d s hwfd hwfs (fun x hx => hm x (by simp [hx])) hpcons.2
      refine ⟨hwfd2, hwfs2, ?_, ?_⟩
      · intro x
        rw [hmemd x]
        constructor
        · rintro (hx | ⟨hxL, hnk⟩)
          · exact Or.inl hx
          · exact Or.inr ⟨by simp [hxL], hnk⟩
        · rintro (hx | ⟨hxL, hnk⟩)
          · exact Or.inl hx
          · rcases List.mem_cons.mp hxL with rfl | hxL2
            · exact absurd hin hnk
            · exact Or.inr ⟨hxL2, hnk⟩
      · intro x
        rw [hmems x]
        constructor
        · rintro ⟨hx, hno⟩
          refine ⟨hx, ?_⟩
          rintro ⟨hxL, hnk⟩
          rcases List.mem_cons.mp hxL with rfl | hxL2
          · exact hnk hin
          · exact hno ⟨hxL2, hnk⟩
        · rintro ⟨hx, hno⟩
          refine ⟨hx, ?_⟩
          rintro ⟨hxL, hnk⟩
          exact hno ⟨by simp [hxL], hnk⟩
    · obtain ⟨hins, hwfd1, -, -, hmemd1⟩ := insert_new hwfd hin
      obtain ⟨-, -, hwfs1, -, hmems1, -⟩ := erase_spec (k := e.1) hwfs
      have hstep : mergeStep hsh (d, s) e =
          ((insert hsh d e).1, (erase hsh s e.1).1) := by
        show (if (insert hsh d e).2 then
          ((insert hsh d e).1, (erase hsh s e.1).1) else (d, s)) = _
        rw [hins]
        rfl
      rw [hstep]
      have hme : e ∈ elems s := hm e (by simp)
      have hm1 : ∀ x ∈ L, x ∈ elems (erase hsh s e.1).1 := by
        intro x hx
        refine (hmems1 x).mpr ⟨hm x (by simp [hx]), ?_⟩
        intro hk
        exact hpcons.1 x hx hk.symm
      obtain ⟨hwfd2, hwfs2, hmemd, hmems⟩ :=
        ih (insert hsh d e).1 (erase hsh s e.1).1 hwfd1 hwfs1 hm1 hpcons.2
      have hkey1 : ∀ j, keyInSet (insert hsh d e).1 j ↔ keyInSet d j ∨ e.1 = j :=
        keyInSet_insert_iff hwfd
      refine ⟨hwfd2, hwfs2, ?_, ?_⟩
      · intro x
        rw [hmemd x]
        constructor
        · rintro (hx1 | ⟨hxL, hnk1⟩)
          · rcases (hmemd1 x).mp hx1 with hx | rfl
            · exact Or.inl hx
            · exact Or.inr ⟨by simp, hin⟩
          · have hnk : ¬ keyInSet d x.1 := fun hc => hnk1 ((hkey1 x.1).mpr (Or.inl hc))
            exact Or.inr ⟨by simp [hxL], hnk⟩
        · rintro (hx | ⟨hxL, hnk⟩)
          · exact Or.inl ((hmemd1 x).mpr (Or.inl hx))
          · rcases List.mem_cons.mp hxL with rfl | hxL2
            · exact Or.inl ((hmemd1 x).mpr (Or.inr rfl))
            · refine Or.inr ⟨hxL2, ?_⟩
              intro hk1
              rcases (hkey1 x.1).mp hk1 with hc | hc
              · exact hnk hc
              · exact hpcons.1 x hxL2 hc
      · intro x
        rw [hmems x]
        constructor
        · rintro ⟨hx1, hno⟩
          obtain ⟨hxs, hxne⟩ := (hmems1 x).mp hx1
          refine ⟨hxs, ?_⟩
          rintro ⟨hxL, hnk⟩
          rcases List.mem_cons.mp hxL with rfl | hxL2
          · exact hxne rfl
          · refine hno ⟨hxL2, ?_⟩
            intro hk1
            rcases (hkey1 x.1).mp hk1 with hc | hc
            · exact hnk hc
            · exact hxne hc.symm
        · rintro ⟨hxs, hno⟩
          have hxne : x.1 ≠ e.1 := by
            intro hke
            have hxe : x = e := elems_key_unique hwfs hxs hme hke
            exact hno ⟨by simp [hxe], by rw [hxe]; exact hin⟩
          refine ⟨(hmems1 x).mpr ⟨hxs, hxne⟩, ?_⟩
          rintro ⟨hxL, hnk1⟩
          have hnk : ¬ keyInSet d x.1 := fun hc => hnk1 ((hkey1 x.1).mpr (Or.inl hc))
          exact hno ⟨by simp [hxL], hnk⟩

theorem merge_spec {hsh : Nat → Nat} {dst src : ParallelHashSet}
    (hwfd : ParWF hsh dst) (hwfs : ParWF hsh src) :
    ParWF hsh (merge hsh dst src).1 ∧
    ParWF hsh (merge hsh dst src).2 ∧
    (∀ x, x ∈ elems (merge hsh dst src).1 ↔
      x ∈ elems dst ∨ (x ∈ elems src ∧ ¬ keyInSet dst x.1)) ∧
    (∀ x, x ∈ elems (merge hsh dst src).2 ↔
      x ∈ elems src ∧ (keyInSet dst x.1)) := by
  obtain ⟨h1, h2, h3, h4⟩ := merge_loop_spec (elems src) dst src hwfd hwfs
    (fun x hx => hx) (elems_pairwise_keys hwfs)
  refine ⟨h1, h2, h3, ?_⟩
  intro x
  refine Iff.trans (show x ∈ elems (merge hsh dst src).2 ↔
      x ∈ elems src ∧ ¬ (x ∈ elems src ∧ ¬ keyInSet dst x.1) from h4 x) ?_
  constructor
  · rintro ⟨hx, hno⟩
    refine ⟨hx, ?_⟩
    by_contra hnk
    exact hno ⟨hx, hnk⟩
  · rintro ⟨hx, hk⟩
    exact ⟨hx, fun h => h.2 hk⟩

theorem insertNode_found {hsh : Nat → Nat} {s : ParallelHashSet} {e : Nat × Nat}
    (hwf : ParWF hsh s) (hin : keyInSet s e.1) :
    ∃ p x, insertNode hsh s (some e) =
      (s, ⟨subidx (hsh e.1) s.shards.length, p, false, some e⟩) ∧
      p < (shardAt s (subidx (hsh e.1) s.shards.length)).slots.length ∧
      slotAt (shardAt s (subidx (hsh e.1) s.shards.length)).slots p = .full x ∧
      x.1 = e.1 := by
  have hi0 : subidx (hsh e.1) s.shards.length < s.shards.length :=
    Nat.mod_lt _ hwf.1
  obtain ⟨p, x, hres, hp, hfull, hxk⟩ :=
    tblInsert_found (hwf.2.1 _ hi0) (hwf.keyIn_shard.mp hin)
  refine ⟨p, x, ?_, hp, hfull, hxk⟩
  show ((⟨s.shards.set (subidx (hsh e.1) s.shards.length)
      (tblInsert hsh (shardAt s (subidx (hsh e.1) s.shards.length)) e).1⟩ :
        ParallelHashSet),
    (⟨subidx (hsh e.1) s.shards.length,
      (tblInsert hsh (shardAt s (subidx (hsh e.1) s.shards.length)) e).2.1,
      (tblInsert hsh (shardAt s (subidx (hsh e.1) s.shards.length)) e).2.2,
      if (tblInsert hsh (shardAt s (subidx (hsh e.1) s.shards.length)) e).2.2
        then none else some e⟩ : InsertReturn))
    = ((s : ParallelHashSet),
      (⟨subidx (hsh e.1) s.shards.length, p, false, some e⟩ : InsertReturn))
  rw [hres]
  show ((⟨s.shards.set (subidx (hsh e.1) s.shards.length)
      (shardAt s (subidx (hsh e.1) s.shards.length))⟩ : ParallelHashSet),
    (⟨subidx (hsh e.1) s.shards.length, p, false, some e⟩ : InsertReturn))
    = ((s : ParallelHashSet),
      (⟨subidx (hsh e.1) s.shards.length, p, false, some e⟩ : InsertReturn))
  rw [shardAt_eq_getElem hi0, list_set_getElem_self]

/-- C1: for every well-formed set and every key `k`, after `insert(k)` an
immediate `contains(k)` reports the key present, and after `erase(k)` an
immediate `find(k)` returns not-found and `contains(k)` is false. -/
theorem claim_C1 (hsh : Nat → Nat) (s : ParallelHashSet) (k tag : Nat)
    (hwf : ParWF hsh s) :
    contains hsh (insert hsh s (k, tag)).1 k = true ∧
    find hsh (erase hsh s k).1 k = none ∧
    contains hsh (erase hsh s k).1 k = false := by
  refine ⟨?_, (erase_spec hwf).1, (erase_spec hwf).2.1⟩
  by_cases hin : keyInSet s k
  · rw [insert_found hwf hin]
    exact hwf.contains_iff.mpr hin
  · obtain ⟨-, hwf2, -, -, hmem⟩ := insert_new (e := (k, tag)) hwf hin
    exact hwf2.contains_iff.mpr ⟨(k, tag), (hmem _).mpr (Or.inr rfl), rfl⟩

theorem claim_C1_witness :
    ParWF hshC set1C ∧
    (contains hshC (insert hshC set1C (7, 9)).1 7 = true ∧
     find hshC (erase hshC set1C 7).1 7 = none ∧
     contains hshC (erase hshC set1C 7).1 7 = false) :=
  ⟨by decide, claim_C1 hshC set1C 7 9 (by decide)⟩

/-- C2: inserting the same key twice yields `inserted = false` on the second
insert call, and the second call leaves `size()` unchanged. -/
theorem claim_C2 (hsh : Nat → Nat) (s : ParallelHashSet) (k tag1 tag2 : Nat)
    (hwf : ParWF hsh s) :
    (insert hsh (insert hsh s (k, tag1)).1 (k, tag2)).2 = false ∧
    size (insert hsh (insert hsh s (k, tag1)).1 (k, tag2)).1 =
      size (insert hsh s (k, tag1)).1 := by
  have hwf1 : ParWF hsh (insert hsh s (k, tag1)).1 := (insert_preserves hwf).1
  have hin1 : keyInSet (insert hsh s (k, tag1)).1 k :=
    (keyInSet_insert_iff hwf k).mpr (Or.inr rfl)
  rw [insert_found hwf1 hin1]
  exact ⟨rfl, rfl⟩

theorem claim_C2_witness :
    ParWF hshC set1C ∧
    ((insert hshC (insert hshC set1C (5, 1)).1 (5, 2)).2 = false ∧
     size (insert hshC (insert hshC set1C (5, 1)).1 (5, 2)).1 =
       size (insert hshC set1C (5, 1)).1) :=
  ⟨by decide, claim_C2 hshC set1C 5 1 2 (by decide)⟩

/-- C3: `merge(source)` attempts an insert into the destination for each
element of `source`: an element whose key already exists in the destination
remains in `source`, every other element moves to the destination.  In
particular, merging `set2 = {7, 19}` into `set1 = {7, 17}` leaves
`set1 == {7, 17, 19}` and `set2 == {7}`, with the element remaining in
`set2` being the original `source` object of key 7. -/
theorem claim_C3 :
    (∀ (hsh : Nat → Nat) (dst src : ParallelHashSet),
      ParWF hsh dst → ParWF hsh src →
      (∀ x, x ∈ elems (merge hsh dst src).1 ↔
        x ∈ elems dst ∨ (x ∈ elems src ∧ ¬ keyInSet dst x.1)) ∧
      (∀ x, x ∈ elems (merge hsh dst src).2 ↔
        x ∈ elems src ∧ keyInSet dst x.1)) ∧
    size (merge hshC set1C set2C).1 = 3 ∧
    keyInSet (merge hshC set1C set2C).1 7 ∧
    keyInSet (merge hshC set1C set2C).1 17 ∧
    keyInSet (merge hshC set1C set2C).1 19 ∧
    getStored hshC (merge hshC set1C set2C).1 7 = some (7, 1) ∧
    getStored hshC (merge hshC set1C set2C).1 19 = some (19, 4) ∧
    size (merge hshC set1C set2C).2 = 1 ∧
    getStored hshC (merge hshC set1C set2C).2 7 = some (7, 3) := by
  refine ⟨?_, ?_, ?_, ?_, ?_, ?_, ?_, ?_, ?_⟩
  · intro hsh dst src hwfd hwfs
    obtain ⟨-, -, h3, h4⟩ := merge_spec hwfd hwfs
    exact ⟨h3, h4⟩
  all_goals decide

theorem claim_C3_witness :
    (ParWF hshC set1C ∧ ParWF hshC set2C) ∧
    ((7, 3) ∈ elems (merge hshC set1C set2C).2 ↔
      (7, 3) ∈ elems set2C ∧ keyInSet set1C (7, 3).1) :=
  ⟨⟨by decide, by decide⟩,
   (claim_C3.1 hshC set1C set2C (by decide) (by decide)).2 (7, 3)⟩

/-- C4: `size()` equals the number of live (Full, non-tombstoned) elements
across all shards; after inserting the 100 distinct keys `{1..100}` into an
empty set with `N = 4` shards, `size()` is 100 and iterating yields exactly
those 100 elements, no duplicates, no omissions. -/
theorem claim_C4 :
    (∀ (hsh : Nat → Nat) (s : ParallelHashSet), ParWF hsh s →
      size s = (s.shards.map (fun t => countFull t.slots)).sum) ∧
    size set100 = 100 ∧
    (elems set100).length = 100 ∧
    ((List.range 100).all fun i => decide (keyInSet set100 (i + 1))) = true ∧
    (elems set100).Nodup := by
  refine ⟨fun hsh s hwf => size_eq_sum_countFull hwf, ?_, ?_, ?_, ?_⟩
  all_goals decide

theorem claim_C4_witness :
    ParWF hshC set100 ∧
    size set100 = (set100.shards.map (fun t => countFull t.slots)).sum :=
  ⟨by decide, claim_C4.1 hshC set100 (by decide)⟩

/-- C5: rehash preserves membership — for every well-formed set and every
target capacity, exactly the elements present before the rehash are present
(and findable via `contains`) after it, and `size()` is unchanged. -/
theorem claim_C5 (hsh : Nat → Nat) (s : ParallelHashSet) (target : Nat)
    (hwf : ParWF hsh s) :
    (∀ x, x ∈ elems (rehash hsh s target) ↔ x ∈ elems s) ∧
    (∀ k, contains hsh (rehash hsh s target) k = contains hsh s k) ∧
    size (rehash hsh s target) = size s := by
  obtain ⟨hwfR, hsz, hlen, hmem⟩ := rehash_spec hwf target
  refine ⟨hmem, ?_, hsz⟩
  intro k
  refine Bool.eq_iff_iff.mpr ?_
  rw [hwfR.contains_iff, hwf.contains_iff]
  constructor
  · rintro ⟨x, hx, hxk⟩
    exact ⟨x, (hmem x).mp hx, hxk⟩
  · rintro ⟨x, hx, hxk⟩
    exact ⟨x, (hmem x).mpr hx, hxk⟩

theorem claim_C5_witness :
    ParWF hshC set1C ∧
    (contains hshC (rehash hshC set1C 64) 7 = contains hshC set1C 7 ∧
     size (rehash hshC set1C 64) = size set1C) := by
  have h := claim_C5 hshC set1C 64 (by decide)
  exact ⟨by decide, h.2.1 7, h.2.2⟩

/-- C6: the setter overload `max_load_factor(ml)` is a no-op: for every set
and every value, it changes no observable state — the set is returned
unchanged, so size, elements, membership and capacity are all unchanged
(the internal 7/8 threshold that triggers rehashing is a constant of the
engine, not part of the state). -/
theorem claim_C6 (s : ParallelHashSet) (ml : Nat) (hsh : Nat → Nat) (k : Nat) :
    max_load_factor s ml = s ∧
    size (max_load_factor s ml) = size s ∧
    elems (max_load_factor s ml) = elems s ∧
    contains hsh (max_load_factor s ml) k = contains hsh s k ∧
    subcnt (max_load_factor s ml) = subcnt s :=
  ⟨rfl, rfl, rfl, rfl, rfl⟩

/-- C7: shard routing is a deterministic, stateless pure function: for a
fixed shard count `N` and hash value, `subidx` returns the same index on
every call, the index is always in range, and a stored key resolves to
exactly the shard its hash routes to. -/
theorem claim_C7 :
    (∀ h₁ h₂ N : Nat, h₁ = h₂ → subidx h₁ N = subidx h₂ N) ∧
    (∀ h N : Nat, 0 < N → subidx h N < N) ∧
    (∀ (hsh : Nat → Nat) (s : ParallelHashSet) (k : Nat), ParWF hsh s →
      ∀ i, i < s.shards.length → ∀ x ∈ tblElems (shardAt s i), x.1 = k →
        i = subidx (hsh k) s.shards.length) := by
  refine ⟨fun h₁ h₂ N he => by rw [he], fun h N hN => Nat.mod_lt _ hN, ?_⟩
  intro hsh s k hwf i hi x hx hxk
  have hr := hwf.mem_route hi hx
  rw [hxk] at hr
  exact hr.symm

theorem claim_C7_witness :
    subidx 123456789 4 = subidx 123456789 4 ∧ subidx 987654321 4 < 4 :=
  ⟨claim_C7.1 123456789 123456789 4 rfl, claim_C7.2.1 987654321 4 (by decide)⟩

/-- C8: when a bulk insert contains several elements whose keys compare
equal, the first-encountered one is inserted and stored, and any later
duplicate is rejected as already present. -/
theorem claim_C8 (hsh : Nat → Nat) (s : ParallelHashSet) (k : Nat)
    (l1 l2 : List (Nat × Nat)) (e1 : Nat × Nat)
    (hwf : ParWF hsh s) (habs : ¬ keyInSet s k)
    (hl1 : ∀ y ∈ l1, y.1 ≠ k) (hek : e1.1 = k) :
    getStored hsh (insertList hsh s (l1 ++ e1 :: l2)) k = some e1 ∧
    ∀ e2 : Nat × Nat, e2.1 = k →
      (insert hsh (insertList hsh s (l1 ++ e1 :: l2)) e2).2 = false := by
  obtain ⟨hwf1, -, hkeys1⟩ := insertList_spec l1 s hwf
  have habs1 : ¬ keyInSet (insertList hsh s l1) k := by
    rw [hkeys1 k]
    rintro (h | ⟨y, hy, hyk⟩)
    · exact habs h
    · exact hl1 y hy hyk
  have habs1e : ¬ keyInSet (insertList hsh s l1) e1.1 := by
    rw [hek]
    exact habs1
  obtain ⟨-, hwf2, -, -, hmem2⟩ := insert_new hwf1 habs1e
  have hsplit : insertList hsh s (l1 ++ e1 :: l2) =
      insertList hsh (insert hsh (insertList hsh s l1) e1).1 l2 := by
    rw [insertList, insertList, insertList, List.foldl_append, List.foldl_cons]
  obtain ⟨hwfF, hmonoF, -⟩ := insertList_spec l2 (insert hsh (insertList hsh s l1) e1).1 hwf2
  have he1 : e1 ∈ elems (insertList hsh s (l1 ++ e1 :: l2)) := by
    rw [hsplit]
    exact hmonoF e1 ((hmem2 e1).mpr (Or.inr rfl))
  have hwfF2 : ParWF hsh (insertList hsh s (l1 ++ e1 :: l2)) := by
    rw [hsplit]
    exact hwfF
  refine ⟨hwfF2.getStored_eq he1 hek, ?_⟩
  intro e2 he2k
  have hkin : keyInSet (insertList hsh s (l1 ++ e1 :: l2)) e2.1 := by
    rw [he2k]
    exact ⟨e1, he1, hek⟩
  rw [insert_found hwfF2 hkin]

theorem claim_C8_witness :
    (ParWF hshC (pEmpty 4) ∧ ¬ keyInSet (pEmpty 4) 7) ∧
    getStored hshC (insertList hshC (pEmpty 4) ([(3, 0)] ++ (7, 5) :: [(7, 6), (2, 0)])) 7
      = some (7, 5) ∧
    (insert hshC (insertList hshC (pEmpty 4) ([(3, 0)] ++ (7, 5) :: [(7, 6), (2, 0)]))
      (7, 9)).2 = false :=
  ⟨⟨by decide, by decide⟩,
   (claim_C8 hshC (pEmpty 4) 7 [(3, 0)] [(7, 6), (2, 0)] (7, 5) (by decide) (by decide)
      (by decide) rfl).1,
   (claim_C8 hshC (pEmpty 4) 7 [(3, 0)] [(7, 6), (2, 0)] (7, 5) (by decide) (by decide)
      (by decide) rfl).2 (7, 9) rfl⟩

/-- C9: inserting a node handle whose key already exists fails without
mutating the set: `inserted = false`, the node is returned to the caller
still owning the element, `position` points at the pre-existing element,
and the set is unchanged. -/
theorem claim_C9 (hsh : Nat → Nat) (s : ParallelHashSet) (e : Nat × Nat)
    (hwf : ParWF hsh s) (hin : keyInSet s e.1) :
    (insertNode hsh s (some e)).1 = s ∧
    (insertNode hsh s (some e)).2.inserted = false ∧
    (insertNode hsh s (some e)).2.node = some e ∧
    ∃ x, slotAt (shardAt s (insertNode hsh s (some e)).2.shard).slots
        (insertNode hsh s (some e)).2.position = .full x ∧ x.1 = e.1 := by
  obtain ⟨p, x, hres, hp, hfull, hxk⟩ := insertNode_found hwf hin
  rw [hres]
  exact ⟨rfl, rfl, rfl, x, hfull, hxk⟩

theorem claim_C9_witness :
    (ParWF hshC set1C ∧ keyInSet set1C (7, 42).1) ∧
    ((insertNode hshC set1C (some (7, 42))).1 = set1C ∧
     (insertNode hshC set1C (some (7, 42))).2.inserted = false ∧
     (insertNode hshC set1C (some (7, 42))).2.node = some (7, 42)) := by
  have h := claim_C9 hshC set1C (7, 42) (by decide) (by decide)
  exact ⟨⟨by decide, by decide⟩, h.1, h.2.1, h.2.2.1⟩

/-- C10: by default `parallel_flat_hash_set` is instantiated with `N = 4`
shards and the no-op `NullMutex` policy (header template defaults), so
`subcnt()` returns 4 for a default-configured set and the default mutex's
acquire/release do nothing. -/
theorem claim_C10 :
    subcnt (pEmpty defaultN) = 4 ∧ defaultN = 4 ∧
    defaultMutex = NullMutex ∧
    defaultMutex.acquire = id ∧ defaultMutex.release = id :=
  ⟨rfl, rfl, rfl, rfl, rfl⟩

end ParallelHashSet
